import Mathlib

/- Verification of the Letterboxd-sync plugin (src/main.ts): a shallow
embedding of its text-merging core, with theorems checking the
natural-language specification against it. Strings are modelled as
lists of characters; the JavaScript string operations the plugin uses
are embedded as executable functions on such lists. -/

set_option linter.unusedVariables false
set_option linter.unnecessarySeqFocus false

/-- Text is modelled as a list of characters. -/
abbrev Str := List Char

/-- Coerce a Lean string literal to the character-list representation. -/
def str (s : String) : Str := s.data

/-- The whitespace characters relevant to JavaScript trimming on the
texts this plugin manipulates. -/
def isWs (c : Char) : Bool := c = ' ' || c = '\t' || c = '\n' || c = '\r'

/-- Drop trailing whitespace. -/
def dropTrailingWs (s : Str) : Str := (s.reverse.dropWhile isWs).reverse

/-- Model of String.prototype.trim. -/
def trimStr (s : Str) : Str := dropTrailingWs (s.dropWhile isWs)

/-- Model of String.prototype.trimEnd. -/
def trimEndStr (s : Str) : Str := dropTrailingWs s

/-- startsWithStr s p: the string s starts with p
(model of String.prototype.startsWith). -/
def startsWithStr : Str → Str → Bool
  | _, [] => true
  | [], _ :: _ => false
  | c :: cs, p :: ps => c = p && startsWithStr cs ps

/-- Model of String.prototype.endsWith. -/
def endsWithStr (s p : Str) : Bool := startsWithStr s.reverse p.reverse

/-- containsSub s t: s contains t as a contiguous substring
(model of String.prototype.includes). -/
def containsSub : Str → Str → Bool
  | [], t => startsWithStr [] t
  | c :: cs, t => startsWithStr (c :: cs) t || containsSub cs t

/-- Split at every newline character (model of text.split on a newline;
never returns an empty list, and splitting the empty string yields one
empty chunk, as in JavaScript). -/
def splitNl : Str → List Str
  | [] => [[]]
  | c :: rest =>
    if c = '\n' then [] :: splitNl rest
    else
      match splitNl rest with
      | [] => [[c]]
      | h :: t => (c :: h) :: t

/-- Model of Array.prototype.join with an arbitrary separator. -/
def joinSep (sep : Str) : List Str → Str
  | [] => []
  | [x] => x
  | x :: y :: t => x ++ sep ++ joinSep sep (y :: t)

/-- Model of Array.prototype.join with the newline separator. -/
def joinNl (ls : List Str) : Str := joinSep ['\n'] ls

/-- Fueled worker splitting a string at every occurrence of a nonempty
separator, left to right (model of String.prototype.split with a string
or literal-regex separator). The fuel always suffices when it exceeds
the length of the input. -/
def splitOnSubF (sep : Str) : Nat → Str → List Str
  | 0, s => [s]
  | Nat.succ f, s =>
    match s with
    | [] => [[]]
    | c :: cs =>
      if startsWithStr (c :: cs) sep && !sep.isEmpty then
        [] :: splitOnSubF sep f (List.drop sep.length (c :: cs))
      else
        match splitOnSubF sep f cs with
        | [] => [[c]]
        | h :: t => (c :: h) :: t

/-- Split at every occurrence of a nonempty separator. -/
def splitOnSub (sep s : Str) : List Str := splitOnSubF sep (s.length + 1) s

/-- Model of String.prototype.replace with a global pattern. -/
def replaceAllSub (pat rep s : Str) : Str := joinSep rep (splitOnSub pat s)

/-- Model of String.prototype.replace with a plain-string pattern,
which replaces only the first occurrence. -/
def replaceFirstSub (pat rep s : Str) : Str :=
  match splitOnSub pat s with
  | [] => s
  | [x] => x
  | x :: y :: t => x ++ rep ++ joinSep pat (y :: t)

/-- Worker for the normalisation replacing every run of three or more
newline characters by exactly two: n newline characters are pending. -/
def collapseGo : Str → Nat → Str
  | [], n => List.replicate (min n 2) '\n'
  | c :: rest, n =>
    if c = '\n' then collapseGo rest (n + 1)
    else List.replicate (min n 2) '\n' ++ c :: collapseGo rest 0

/-- Model of result.replace of newline runs of length at least three by
two newlines (the final normalisation pass of rebuildMovieNoteContent). -/
def collapseNl (s : Str) : Str := collapseGo s 0

/-- Model of Array.prototype.findIndex, as an Option. -/
def firstIdxP (p : Str → Bool) : List Str → Option Nat
  | [] => none
  | l :: rest => if p l then some 0 else (firstIdxP p rest).map (· + 1)

/-- Decimal printing of a natural number. -/
def natToStr (n : Nat) : Str := (Nat.repr n).data

/-- Decimal printing of an integer. -/
def intToStr (i : Int) : Str := (Int.repr i).data

/-- JavaScript printing of a nonnegative number that is a multiple of
one half (the only member-rating values the feed produces). -/
def ratToStr (q : Rat) : Str :=
  if q.den = 1 then intToStr q.num
  else intToStr q.floor ++ str ".5"

/- ------------------------------------------------------------------
Embedding of src/main.ts
------------------------------------------------------------------ -/

/-- src/main.ts decodeHtmlEntities: the chained global replaces. -/
def decodeHtmlEntities (text : Str) : Str :=
  let t1 := replaceAllSub (str "&amp;") (str "&") text
  let t2 := replaceAllSub (str "&lt;") (str "<") t1
  let t3 := replaceAllSub (str "&gt;") (str ">") t2
  let t4 := replaceAllSub (str "&quot;") (str "\"") t3
  let t5 := replaceAllSub (str "&#039;") (str "\x27") t4
  replaceAllSub (str "’") (str "\x27") t5

/-- A frontmatter value: a scalar (in its printed form, as the source
serialises values by string interpolation) or an array of strings. -/
inductive FmVal where
  | scalar (v : Str)
  | arr (vs : List Str)
deriving DecidableEq

/-- The lines one key contributes in objToFrontmatter. -/
def fmEntryLines (e : Str × FmVal) : Str :=
  match e.2 with
  | FmVal.scalar v => e.1 ++ str ": " ++ v ++ ['\n']
  | FmVal.arr vs => e.1 ++ str ":\n" ++ (vs.map (fun v => str "  - " ++ v ++ ['\n'])).flatten

/-- src/main.ts objToFrontmatter: serialise an ordered mapping
(delimiter line, one scalar line or an array head line with indented
item lines per key in order, delimiter line). -/
def objToFrontmatter (obj : List (Str × FmVal)) : Str :=
  str "---\n" ++ (obj.map fmEntryLines).flatten ++ str "---\n"

/-- Model of the host Unicode NFD normalisation (the identity on
strings without precomposed characters; exact for ASCII input). -/
def nfdNormalize (s : Str) : Str := s

/-- A combining diacritical mark, the range removed by slugify. -/
def isCombiningMark (c : Char) : Bool := 0x300 ≤ c.toNat && c.toNat ≤ 0x36F

/-- A regex word character. -/
def isWordChar (c : Char) : Bool :=
  ('a' ≤ c && c ≤ 'z') || ('A' ≤ c && c ≤ 'Z') || ('0' ≤ c && c ≤ '9') || c = '_'

/-- Replace every whitespace run by one dash (the inRun flag tracks
whether the current character extends a run already replaced). -/
def wsRunToDashGo (inRun : Bool) : Str → Str
  | [] => []
  | c :: rest =>
    if isWs c then (if inRun then [] else ['-']) ++ wsRunToDashGo true rest
    else c :: wsRunToDashGo false rest

/-- Collapse every dash run to one dash. -/
def dashRunGo (inRun : Bool) : Str → Str
  | [] => []
  | c :: rest =>
    if c = '-' then (if inRun then [] else ['-']) ++ dashRunGo true rest
    else c :: dashRunGo false rest

/-- src/main.ts slugify: NFD normalise, strip combining marks, lower
case, keep only word characters, whitespace and dashes, turn whitespace
runs into dashes, collapse dash runs, trim. -/
def slugify (text : Str) : Str :=
  trimStr (dashRunGo false (wsRunToDashGo false
    ((((nfdNormalize text).filter (fun c => !isCombiningMark c)).map Char.toLower).filter
      (fun c => isWordChar c || isWs c || c = '-'))))

/-- src/main.ts starParser. An undefined rating yields the empty
string; star style 1 and 2 print filled stars with a half glyph for the
fractional part, any other style prints the numeric form. -/
def starParser (rating : Option Rat) (star : Nat) : Str :=
  match rating with
  | none => []
  | some q =>
    match star with
    | 1 => ['('] ++ List.replicate q.floor.toNat '★' ++ (if q.den = 1 then [] else ['½']) ++ [')']
    | 2 => ['('] ++ List.replicate q.floor.toNat '⭐' ++ (if q.den = 1 then [] else ['½']) ++ [')']
    | _ => ['('] ++ ratToStr q ++ str " stars)"

/-- The text contents of the paragraph elements of a feed description
and its first image source: model of the DOM extraction the plugin
performs on the RSS description markup. -/
structure DescriptionDom where
  paragraphs : List Str
  img : Option Str
deriving DecidableEq

/-- src/main.ts extractReview (null modelled as none): join the
paragraphs whose trimmed text is nonempty; if the joined text contains
the phrase Watched on anywhere, there is no review. -/
def extractReview (paragraphs : List Str) : Option Str :=
  let reviewText := joinSep (str "\n\n") (paragraphs.filter (fun t => !(trimStr t).isEmpty))
  if containsSub reviewText (str "Watched on") then none else some reviewText

/-- src/main.ts extractReviewBlockquote: the trimmed nonempty
paragraphs not containing Watched on, each quoted, joined by quoted
blank lines; empty when no paragraph qualifies. -/
def extractReviewBlockquote (paragraphs : List Str) : Str :=
  let ps := (paragraphs.map trimStr).filter
    (fun t => !t.isEmpty && !containsSub t (str "Watched on"))
  if ps.isEmpty then [] else joinSep (str "\n>\n") (ps.map (fun p => str "> " ++ p))

/-- The display variant selector. -/
inductive CalloutStyle where
  | list
  | listReview
  | callout
  | calloutPoster
deriving DecidableEq

/-- The plugin settings used by the core, together with models of the
two external date facilities: momentFormat models the moment library
formatting a date string under a nonempty format, and dateValue models
new Date(x).getTime() on feed date strings. -/
structure LetterboxdSettings where
  dateFormat : Str
  displayDateFormat : Str
  sort : Str
  callout : CalloutStyle
  stars : Nat
  addReferenceId : Bool
  linkDate : Bool
  createMovieNotes : Bool
  movieNoteTemplate : Str
  momentFormat : Str → Str → Str
  dateValue : Str → Int

/-- src/main.ts getFormattedDate: an empty format string means the raw
date string, otherwise the moment-formatted form. -/
def getFormattedDate (s : LetterboxdSettings) (dateString dateFormat : Str) : Str :=
  if dateFormat.isEmpty then dateString else s.momentFormat dateString dateFormat

/-- The fields of one RSS feed item that the plugin reads. The film
title and year are Options because the validation claims concern their
absence; the description is the DOM extraction model. -/
structure RSSEntry where
  link : Str
  guid : Str
  pubDate : Str
  watchedDate : Option Str
  rewatch : Str
  filmTitle : Option Str
  filmYear : Option Int
  memberRating : Option Rat
  description : DescriptionDom
deriving DecidableEq

/-- The displayDate let-binding of generateDiaryEntry: a present
watched date is formatted under the link format and wrapped as a
wikilink when linkDate is set, else under the display format; an absent
watched date falls back to the publish date under the display format,
never linked. -/
def diaryDisplayDate (s : LetterboxdSettings) (item : RSSEntry) : Str :=
  match item.watchedDate with
  | some d =>
    if s.linkDate then str "[[" ++ getFormattedDate s d s.dateFormat ++ str "]]"
    else getFormattedDate s d s.displayDateFormat
  | none => getFormattedDate s item.pubDate s.displayDateFormat

/-- The watchedPhrase let-binding of generateDiaryEntry. -/
def diaryWatchedPhrase (s : LetterboxdSettings) (item : RSSEntry) (link stars : Str) : Str :=
  match item.watchedDate with
  | some _ => str "Watched " ++ link ++ [' '] ++ stars ++ str " on " ++ diaryDisplayDate s item
  | none =>
    str "Marked as watched " ++ link ++ [' '] ++ stars ++ str " on " ++ diaryDisplayDate s item

/-- src/main.ts generateDiaryEntry, given the present film title (the
wrapper below models the throw on a missing title). -/
def generateDiaryEntryCore (s : LetterboxdSettings) (item : RSSEntry)
    (rawTitle : Str) (internalLink : Option Str) : Str :=
  let img := item.description.img
  let reviewText : Str :=
    match extractReview item.description.paragraphs with
    | none => []
    | some t =>
      if t.isEmpty then [] else joinSep (str "\r > \r > ") (splitOnSub (str "\n\n") t)
  let filmTitle := decodeHtmlEntities rawTitle
  let stars := starParser item.memberRating s.stars
  let reference : Str :=
    if s.addReferenceId then
      str " ^letterboxd" ++ (splitOnSub (str "-") item.guid).getD 2 (str "undefined")
    else []
  let link :=
    match internalLink with
    | some l => l
    | none => ['['] ++ filmTitle ++ str "](" ++ item.link ++ [')']
  let displayDate := diaryDisplayDate s item
  let watchedPhrase := diaryWatchedPhrase s item link stars
  match s.callout with
  | CalloutStyle.list => str "- " ++ watchedPhrase
  | CalloutStyle.listReview =>
    str "- " ++ watchedPhrase ++ [' '] ++
      (if reviewText.isEmpty then [] else str "\r >" ++ reviewText ++ ['\n'])
  | CalloutStyle.callout =>
    str "> [!letterboxd]+ " ++
      (if item.memberRating.isSome || !reviewText.isEmpty then str "Review: "
       else str "Watched: ") ++
      [' '] ++ link ++ [' '] ++ stars ++ str " - " ++ displayDate ++ str " \r> " ++
      (if reviewText.isEmpty then [] else reviewText) ++ reference ++ ['\n']
  | CalloutStyle.calloutPoster =>
    str "> [!letterboxd]+ " ++
      (if item.memberRating.isSome || !reviewText.isEmpty then str "Review: "
       else str "Watched: ") ++
      [' '] ++ link ++ [' '] ++ stars ++ str " - " ++ displayDate ++ str " \r> " ++
      (if reviewText.isEmpty then []
       else
         match img with
         | some i => str "![" ++ filmTitle ++ str "|200](" ++ i ++ str ") \r> " ++ reviewText
         | none => reviewText) ++
      reference ++ ['\n']

/-- src/main.ts generateDiaryEntry: a missing film title makes the
function throw on undefined.replace, modelled as none. -/
def generateDiaryEntry (s : LetterboxdSettings) (item : RSSEntry)
    (internalLink : Option Str) : Option Str :=
  match item.filmTitle with
  | none => none
  | some t => some (generateDiaryEntryCore s item t internalLink)

/-- The shift loop of updateDiaryFile: discard lines up to and
including the second delimiter line (all lines when fewer than two
delimiter lines occur); n delimiter lines have been consumed. -/
def dropThroughDashes (n : Nat) : List Str → List Str
  | [] => []
  | l :: rest =>
    if l = str "---" then
      if n + 1 = 2 then rest else dropThroughDashes (n + 1) rest
    else dropThroughDashes n rest

/-- The body lines the diary merge works on: the document split into
lines, with the frontmatter block discarded when the host reported a
nonempty frontmatter string. -/
def diaryBodyLines (frontMatter data : Str) : List Str :=
  if frontMatter.isEmpty then splitNl data
  else dropThroughDashes 0 (splitNl data)

/-- The vault.process transform of src/main.ts updateDiaryFile: build
the body lines, filter the rendered entries to those not already
present as a body line, append them after (sort Old) or prepend them
before (otherwise) the body, and put the frontmatter string back in
front. -/
def updateDiaryTransform (frontMatter sort : Str) (newDiaryEntries : List Str)
    (data : Str) : Str :=
  let arr := diaryBodyLines frontMatter data
  let newEntries := newDiaryEntries.filter (fun e => !arr.contains e)
  let finalEntries := if sort = str "Old" then arr ++ newEntries else newEntries ++ arr
  frontMatter ++ joinNl finalEntries

/-- The create branch of updateDiaryFile: the text of a fresh diary
file. -/
def createDiaryText (newDiaryEntries : List Str) : Str := joinNl newDiaryEntries

/- ------------------------------------------------------------------
The entity-note section merge (rebuildMovieNoteContent)
------------------------------------------------------------------ -/

/-- The managed heading line. -/
def mainHeaderStr : Str := str "## Letterboxd"

/-- The review sub-heading line. -/
def reviewHeaderStr : Str := str "### Review"

/-- The activity sub-heading line. -/
def activityHeaderStr : Str := str "### Activity"

/-- The managed-heading test of rebuildMovieNoteContent: the trimmed
line equals the heading. -/
def isMainHeaderLine (l : Str) : Bool := trimStr l = mainHeaderStr

/-- The next-H1-or-H2 boundary test of rebuildMovieNoteContent (the
raw line matches one or two hash marks followed by a space). -/
def isSectionBoundary (l : Str) : Bool :=
  startsWithStr l (str "# ") || startsWithStr l (str "## ")

/-- The activity-collection loop: trimmed bullet lines, stopping at the
first line whose trimmed text starts with a hash mark. -/
def collectActivities : List Str → List Str
  | [] => []
  | l :: rest =>
    if startsWithStr (trimStr l) (str "#") then []
    else if startsWithStr (trimStr l) (str "-") then trimStr l :: collectActivities rest
    else collectActivities rest

/-- The review-recovery loop: raw lines whose trimmed text is nonempty,
stopping at the first line whose trimmed text starts with a hash mark. -/
def collectReviewLines : List Str → List Str
  | [] => []
  | l :: rest =>
    if startsWithStr (trimStr l) (str "#") then []
    else if (trimStr l).isEmpty then collectReviewLines rest
    else l :: collectReviewLines rest

/-- The activity entries parsed out of a managed-section body: the
content between the first and second occurrence of the activity
sub-heading (or to the end when it occurs once), collected line by
line. -/
def activitiesOf (sectionContent : Str) : List Str :=
  if containsSub sectionContent activityHeaderStr then
    match splitOnSub activityHeaderStr sectionContent with
    | _ :: p1 :: _ => collectActivities (splitNl p1)
    | _ => []
  else []

/-- The review recovered from a managed-section body when no new review
block is supplied. -/
def reviewOf (sectionContent : Str) : Str :=
  if containsSub sectionContent reviewHeaderStr then
    match splitOnSub reviewHeaderStr sectionContent with
    | _ :: p1 :: _ => trimStr (joinNl (collectReviewLines (splitNl p1)))
    | _ => []
  else []

/-- The duplicate-avoiding append on the activity list: the new line is
pushed unless an entry equal to its trimmed text already exists. -/
def mergedActivities (activities : List Str) (activityLine : Str) : List Str :=
  if activities.any (fun a => a = trimStr activityLine) then activities
  else activities ++ [activityLine]

/-- Locate the managed section of a note: the lines strictly before the
heading line, the section body lines (strictly between the heading line
and the next H1-or-H2 boundary or the end of the document), and the
lines from the boundary on. None when the heading does not occur. -/
def locateSection (content : Str) : Option (List Str × List Str × List Str) :=
  let lines := splitNl content
  match firstIdxP isMainHeaderLine lines with
  | none => none
  | some idx =>
    let rest := lines.drop (idx + 1)
    let endOff :=
      match firstIdxP isSectionBoundary rest with
      | none => rest.length
      | some j => j
    some (lines.take idx, rest.take endOff, lines.drop (idx + 1 + endOff))

/-- The managed-section body text of a note, when the heading occurs. -/
def sectionContentOf (content : Str) : Option Str :=
  (locateSection content).map (fun t => joinNl t.2.1)

/-- The found-heading branch of rebuildMovieNoteContent before the
final splice and newline normalisation: the untouched prefix lines, the
rebuilt section lines, and the untouched suffix lines. -/
def rebuildParts (content reviewBlock activityLine : Str) :
    Option (List Str × List Str × List Str) :=
  match locateSection content with
  | none => none
  | some (before, sectionLines, after) =>
    let sectionContent := joinNl sectionLines
    let activities := mergedActivities (activitiesOf sectionContent) activityLine
    let finalReview := if reviewBlock.isEmpty then reviewOf sectionContent else reviewBlock
    let newSectionLines :=
      [mainHeaderStr] ++
      (if finalReview.isEmpty then [] else [[], reviewHeaderStr, [], finalReview]) ++
      [[], activityHeaderStr, [], joinNl activities, []]
    some (before, newSectionLines, after)

/-- src/main.ts rebuildMovieNoteContent, as the pure text transform
passed to vault.process: when the heading is absent a fresh section is
appended to the trimmed document; otherwise the rebuilt section is
spliced between the untouched prefix and suffix and newline runs of
length at least three are collapsed to two. -/
def rebuildMovieNoteContent (content reviewBlock activityLine : Str) : Str :=
  match rebuildParts content reviewBlock activityLine with
  | none =>
    let newSection :=
      [[], mainHeaderStr] ++
      (if reviewBlock.isEmpty then [] else [[], reviewHeaderStr, [], reviewBlock]) ++
      [[], activityHeaderStr, [], activityLine]
    trimEndStr content ++ '\n' :: joinNl newSection
  | some (before, newSectionLines, after) =>
    collapseNl (joinNl (before ++ newSectionLines ++ after))

/- ------------------------------------------------------------------
Modelled host frontmatter facilities (not part of src/main.ts)
------------------------------------------------------------------ -/

/-- A frontmatter item line (two spaces, dash, space). -/
def fmIsItemLine (l : Str) : Bool := startsWithStr l (str "  - ")

/-- A frontmatter scalar line (contains a colon-space separator). -/
def fmIsScalarLine (l : Str) : Bool := containsSub l (str ": ")

/-- A frontmatter array head line (ends in a colon). -/
def fmIsArrayStart (l : Str) : Bool := endsWithStr l (str ":")

/-- Split a string at the first occurrence of a pattern, keeping the
rest intact. -/
def splitFirstAt (pat l : Str) : Str × Str :=
  match splitOnSub pat l with
  | [] => (l, [])
  | [x] => (x, [])
  | x :: y :: t => (x, joinSep pat (y :: t))

/-- Emit a pending open array. -/
def fmFlush : Option (Str × List Str) → List (Str × FmVal)
  | none => []
  | some (k, items) => [(k, FmVal.arr items)]

/-- Modelled from the spec (section 4.3): the line-by-line frontmatter
parse the plugin delegates to the host. Item lines extend the open
array; a line with a colon-space separator is a scalar split at its
first occurrence; a line ending in a colon opens an array; any other
line is skipped. -/
def fmParseGo (pending : Option (Str × List Str)) : List Str → List (Str × FmVal)
  | [] => fmFlush pending
  | l :: rest =>
    if fmIsItemLine l then
      match pending with
      | some (k, items) => fmParseGo (some (k, items ++ [l.drop 4])) rest
      | none => fmParseGo none rest
    else if fmIsScalarLine l then
      fmFlush pending ++
        ((splitFirstAt (str ": ") l).1, FmVal.scalar (splitFirstAt (str ": ") l).2) ::
          fmParseGo none rest
    else if fmIsArrayStart l then
      fmFlush pending ++ fmParseGo (some (l.dropLast, [])) rest
    else fmFlush pending ++ fmParseGo none rest

/-- Modelled from the spec (sections 4.3 and 7): the host frontmatter
parse src/main.ts relies on (app.fileManager.processFrontMatter). A
document whose first line is the delimiter is scanned to the next
delimiter line and the lines between are parsed; a block that opens but
never closes is the format error, recovered by the caller as no
frontmatter (none here); a document without a leading delimiter has
empty frontmatter. -/
def parseFrontmatter (s : Str) : Option (List (Str × FmVal)) :=
  match splitNl s with
  | [] => some []
  | l0 :: rest =>
    if l0 = str "---" then
      match firstIdxP (fun l => l = str "---") rest with
      | some j => some (fmParseGo none (rest.take j))
      | none => none
    else some []

/-- Modelled from the spec: the frontmatter string updateDiaryFile
obtains from the host before merging: the serialised form of the parsed
mapping when one exists and is nonempty, and the empty string otherwise
(in particular for the unclosed-frontmatter format error, recovered as
no frontmatter). -/
def obsidianFmStr (data : Str) : Str :=
  match parseFrontmatter data with
  | some m => if m.isEmpty then [] else objToFrontmatter m
  | none => []

/-- updateDiaryFile on an existing diary document: the host frontmatter
extraction followed by the merge transform. -/
def updateDiaryFile (sort : Str) (entries : List Str) (data : Str) : Str :=
  updateDiaryTransform (obsidianFmStr data) sort entries data

/- ------------------------------------------------------------------
The movie-note step and the sync driver
------------------------------------------------------------------ -/

/-- Model of Obsidian normalizePath: the identity on the already
normalised paths this development evaluates. -/
def normalizePathM (p : Str) : Str := p

/-- Look a path up in the vault (a path-to-text association list). -/
def lookupVault (vault : List (Str × Str)) (path : Str) : Option Str :=
  match vault.find? (fun e => e.1 = path) with
  | some e => some e.2
  | none => none

/-- Create or overwrite a vault entry. -/
def vaultSet (vault : List (Str × Str)) (p c : Str) : List (Str × Str) :=
  if vault.any (fun e => e.1 = p) then
    vault.map (fun e => if e.1 = p then (p, c) else e)
  else vault ++ [(p, c)]

/-- Modelled from the spec: the body of a document after its closed
frontmatter block; the whole document when there is none. -/
def bodyAfterFm (s : Str) : Str :=
  match splitNl s with
  | [] => s
  | l0 :: rest =>
    if l0 = str "---" then
      match firstIdxP (fun l => l = str "---") rest with
      | some j => joinNl (rest.drop (j + 1))
      | none => s
    else s

/-- Set a key of an ordered mapping in place, appending when absent. -/
def fmSet (m : List (Str × FmVal)) (k : Str) (v : FmVal) : List (Str × FmVal) :=
  if m.any (fun e => e.1 = k) then m.map (fun e => if e.1 = k then (k, v) else e)
  else m ++ [(k, v)]

/-- Delete a key of an ordered mapping. -/
def fmDelete (m : List (Str × FmVal)) (k : Str) : List (Str × FmVal) :=
  m.filter (fun e => if e.1 = k then false else true)

/-- Modelled from the spec: the host processFrontMatter call of
createOrUpdateMovieNote, which sets title, source and year (and score
when present), deletes the legacy letterboxd_url key, and writes the
updated block back ahead of the unchanged body. -/
def processFmUpdate (content title url : Str) (year : Int) (score : Option Rat) : Str :=
  let m0 := (parseFrontmatter content).getD []
  let m1 := fmSet m0 (str "title") (FmVal.scalar title)
  let m2 := fmSet m1 (str "source") (FmVal.scalar url)
  let m3 := fmSet m2 (str "year") (FmVal.scalar (intToStr year))
  let m4 :=
    match score with
    | some q => fmSet m3 (str "score") (FmVal.scalar (ratToStr q))
    | none => m3
  objToFrontmatter (fmDelete m4 (str "letterboxd_url")) ++ bodyAfterFm content

/-- The activity line of createOrUpdateMovieNote: a present watched
date under the link format as a wikilink when linkDate is set (else the
display format) with the Watched prefix, otherwise the publish date
under the display format with the Marked-as-watched prefix; the rating
prints as a dash when absent. -/
def movieActivityLine (s : LetterboxdSettings) (item : RSSEntry) : Str :=
  let ratingStr :=
    match item.memberRating with
    | some q => ratToStr q
    | none => str "-"
  match item.watchedDate with
  | some d =>
    let dl :=
      if s.linkDate then str "[[" ++ getFormattedDate s d s.dateFormat ++ str "]]"
      else getFormattedDate s d s.displayDateFormat
    str "- **Watched:** " ++ dl ++ str " **Rating:** " ++ ratingStr ++
      str " **Rewatch:** " ++ item.rewatch
  | none =>
    str "- **Marked as watched:** " ++ getFormattedDate s item.pubDate s.displayDateFormat ++
      str " **Rating:** " ++ ratingStr ++ str " **Rewatch:** " ++ item.rewatch

/-- src/main.ts createOrUpdateMovieNote as a pure function of the vault
contents: the write it performs (path and new text) and the internal
link it returns. None models the TypeError thrown when the film title
or the film year is missing (undefined.replace and
undefined.toString). Folder creation has no effect on the texts and is
not modelled. -/
def createOrUpdateMovieNote (s : LetterboxdSettings) (vault : List (Str × Str))
    (item : RSSEntry) : Option ((Str × Str) × Str) :=
  match item.filmTitle, item.filmYear with
  | some rawTitle, some filmYear =>
    let title := decodeHtmlEntities rawTitle
    let yearStr := intToStr filmYear
    let safeTitle := title.filter (fun c =>
      !(c = ':' || c = '/' || c = '\\' || c = '|' || c = '?' || c = '*' ||
        c = '<' || c = '>' || c = '"'))
    let slug := slugify title
    let path0 := replaceFirstSub (str "\x7b\x7btitle\x7d\x7d") safeTitle s.movieNoteTemplate
    let path1 := replaceFirstSub (str "\x7b\x7byear\x7d\x7d") yearStr path0
    let path2 := replaceFirstSub (str "\x7b\x7bslug\x7d\x7d") slug path1
    let path := normalizePathM
      (if endsWithStr path2 (str ".md") then path2 else path2 ++ str ".md")
    let reviewBlock := extractReviewBlockquote item.description.paragraphs
    let activityLine := movieActivityLine s item
    let internalLink := str "[[" ++ replaceFirstSub (str ".md") [] path ++ ['|'] ++
      title ++ str "]]"
    match lookupVault vault path with
    | some existing =>
      let updated := processFmUpdate existing title item.link filmYear item.memberRating
      some ((path, rebuildMovieNoteContent updated reviewBlock activityLine), internalLink)
    | none =>
      let fmObj :=
        [(str "title", FmVal.scalar title), (str "source", FmVal.scalar item.link),
         (str "year", FmVal.scalar yearStr)] ++
        (match item.memberRating with
         | some q => [(str "score", FmVal.scalar (ratToStr q))]
         | none => [])
      let content := objToFrontmatter fmObj ++ str "\n## Letterboxd" ++
        (if reviewBlock.isEmpty then [] else str "\n\n### Review\n\n" ++ reviewBlock) ++
        str "\n\n### Activity\n\n" ++ activityLine
      some ((path, content), internalLink)
  | _, _ => none

/-- The comparator relation of the items.sort call of syncLetterboxd:
ascending publish-date value for sort Old, descending otherwise. -/
def itemOrder (s : LetterboxdSettings) (a b : RSSEntry) : Prop :=
  if s.sort = str "Old" then s.dateValue a.pubDate ≤ s.dateValue b.pubDate
  else s.dateValue b.pubDate ≤ s.dateValue a.pubDate

instance (s : LetterboxdSettings) : DecidableRel (itemOrder s) := fun a b => by
  unfold itemOrder; split <;> infer_instance

/-- The items.sort call of syncLetterboxd, modelled as a stable sort
under the comparator order. -/
def sortItems (s : LetterboxdSettings) (items : List RSSEntry) : List RSSEntry :=
  List.insertionSort (itemOrder s) items

/-- The movie-note loop of syncLetterboxd: the writes performed in
order together with the guid-to-link pairs collected; the loop aborts
on the first throwing item, so the error case carries exactly the
writes performed before the failure. -/
def processNotes (s : LetterboxdSettings) :
    List (Str × Str) → List RSSEntry →
    Except (List (Str × Str)) (List (Str × Str) × List (Str × Str))
  | _, [] => Except.ok ([], [])
  | vault, item :: rest =>
    match createOrUpdateMovieNote s vault item with
    | none => Except.error []
    | some ((p, c), link) =>
      match processNotes s (vaultSet vault p c) rest with
      | Except.error ws => Except.error ((p, c) :: ws)
      | Except.ok (ws, links) => Except.ok ((p, c) :: ws, (item.guid, link) :: links)

/-- The diary-entry map of syncLetterboxd: none models the throw on a
missing film title aborting the whole map. -/
def renderAll (s : LetterboxdSettings) (links : List (Str × Str)) :
    List RSSEntry → Option (List Str)
  | [] => some []
  | item :: rest =>
    match generateDiaryEntry s item
        ((links.find? (fun e => e.1 = item.guid)).map (fun e => e.2)) with
    | none => none
    | some e => (renderAll s links rest).map (fun es => e :: es)

/-- The outcome of one sync run: the movie-note writes performed and
the diary text written, or an aborted run (a thrown TypeError) carrying
the movie-note writes performed before the failure and updating no
diary. -/
inductive SyncOutcome where
  | ok (noteWrites : List (Str × Str)) (diaryText : Str)
  | err (noteWrites : List (Str × Str))
deriving DecidableEq

/-- src/main.ts syncLetterboxd as a function of the already fetched
feed items, the vault contents and the current diary text (none when
the diary file does not exist): sort the items, run the movie-note loop
when enabled, render all diary entries (substituting the collected
internal links), and merge them into the diary exactly once. -/
def syncLetterboxd (s : LetterboxdSettings) (vault : List (Str × Str))
    (diary : Option Str) (items : List RSSEntry) : SyncOutcome :=
  let sorted := sortItems s items
  match (if s.createMovieNotes then processNotes s vault sorted else Except.ok ([], [])) with
  | Except.error ws => SyncOutcome.err ws
  | Except.ok (ws, links) =>
    match renderAll s links sorted with
    | none => SyncOutcome.err ws
    | some entries =>
      SyncOutcome.ok ws
        (match diary with
         | none => createDiaryText entries
         | some d => updateDiaryFile s.sort entries d)

/- ------------------------------------------------------------------
Predicates and concrete inputs used by the theorems
------------------------------------------------------------------ -/

/-- A frontmatter string as the host serialises it: empty, or a
delimiter line, middle lines free of newlines and not equal to the
delimiter, a delimiter line, and a trailing newline. -/
def fmWellformed (fm : Str) : Prop :=
  fm = [] ∨ ∃ mids : List Str, (∀ m ∈ mids, ('\n' : Char) ∉ m ∧ m ≠ str "---") ∧
    fm = joinNl (str "---" :: mids ++ [str "---"]) ++ ['\n']

/-- No run of three or more consecutive newline characters (the final
normalisation of rebuildMovieNoteContent is the identity exactly on
such strings). -/
def noTripleNl : Str → Bool
  | [] => true
  | [_] => true
  | [_, _] => true
  | a :: b :: c :: rest =>
    !(a = '\n' && b = '\n' && c = '\n') && noTripleNl (b :: c :: rest)

/-- The content outside the managed section of a note, in the words of
claim C3: the text strictly before the managed heading line and the
text strictly after the section's end boundary (the next H1-or-H2 line,
or the end of the document). None when the heading does not occur. -/
def textOutside (s : Str) : Option (Str × Str) :=
  (locateSection s).map (fun t => (joinNl t.1, joinNl t.2.2))

/-- The movie-note writes an outcome carries. -/
def syncNoteWrites : SyncOutcome → List (Str × Str)
  | SyncOutcome.ok ws _ => ws
  | SyncOutcome.err ws => ws

/-- Whether an outcome is an aborted run. -/
def syncAborted : SyncOutcome → Bool
  | SyncOutcome.ok _ _ => false
  | SyncOutcome.err _ => true

/-- Concrete settings for the concrete evaluations: Callout variant,
empty format strings (so the modelled date library is never consulted),
dates compared by length. -/
def cfgCallout : LetterboxdSettings where
  dateFormat := []
  displayDateFormat := []
  sort := str "Old"
  callout := CalloutStyle.callout
  stars := 0
  addReferenceId := false
  linkDate := false
  createMovieNotes := false
  movieNoteTemplate := str "M"
  momentFormat := fun _ _ => []
  dateValue := fun d => (d.length : Int)

/-- Concrete settings with the List variant and linked dates. -/
def cfgList : LetterboxdSettings :=
  { cfgCallout with callout := CalloutStyle.list, linkDate := true }

/-- Concrete settings with movie notes enabled. -/
def cfgNotes : LetterboxdSettings :=
  { cfgCallout with createMovieNotes := true }

/-- A concrete feed item with a watched date. -/
def itemWatched : RSSEntry where
  link := str "L"
  guid := str "g1"
  pubDate := str "P"
  watchedDate := some (str "2024-01-01")
  rewatch := str "No"
  filmTitle := some (str "T")
  filmYear := some 2000
  memberRating := none
  description := { paragraphs := [], img := none }

/-- A concrete feed item without a watched date. -/
def itemMarked : RSSEntry :=
  { itemWatched with guid := str "g2", watchedDate := none }

/-- A concrete feed item lacking the film year. -/
def itemNoYear : RSSEntry :=
  { itemWatched with guid := str "g3", filmYear := none }

/-- The mapping whose scalar value contains a newline, breaking the
frontmatter round trip. -/
def fmBadMapping : List (Str × FmVal) := [(str "k", FmVal.scalar (str "a\nb"))]

/-- A frontmatter key that serialises unambiguously: free of newlines,
colons and spaces (as are all the keys the plugin writes). -/
def fmKeyOk (k : Str) : Prop :=
  ('\n' : Char) ∉ k ∧ (':' : Char) ∉ k ∧ (' ' : Char) ∉ k

/-- A frontmatter value that serialises unambiguously: scalars and
array elements free of newlines. -/
def fmValOk : FmVal → Prop
  | FmVal.scalar v => ('\n' : Char) ∉ v
  | FmVal.arr vs => ∀ v ∈ vs, ('\n' : Char) ∉ v

/-- A mapping whose keys and values serialise unambiguously. -/
def fmMappingOk (m : List (Str × FmVal)) : Prop :=
  ∀ e ∈ m, fmKeyOk e.1 ∧ fmValOk e.2

/-- The lines one key contributes in objToFrontmatter, as a list of
lines rather than newline-terminated text. -/
def fmEntryLineView (e : Str × FmVal) : List Str :=
  match e.2 with
  | FmVal.scalar v => [e.1 ++ str ": " ++ v]
  | FmVal.arr vs => (e.1 ++ [':']) :: vs.map (fun v => str "  - " ++ v)

/- ------------------------------------------------------------------
Lemmas: splitting and joining lines
------------------------------------------------------------------ -/

theorem splitNl_ne_nil (s : Str) : splitNl s ≠ [] := by
  induction s with
  | nil => simp [splitNl]
  | cons c rest ih =>
    simp only [splitNl]
    split
    · simp
    · cases h : splitNl rest <;> simp

theorem mem_splitNl_not_nl {s : Str} : ∀ l ∈ splitNl s, ('\n' : Char) ∉ l := by
  induction s with
  | nil =>
    intro l hl
    simp only [splitNl, List.mem_singleton] at hl
    simp [hl]
  | cons c rest ih =>
    intro l hl
    simp only [splitNl] at hl
    by_cases hc : c = '\n'
    · rw [if_pos hc] at hl
      rcases List.mem_cons.mp hl with h | h
      · simp [h]
      · exact ih l h
    · rw [if_neg hc] at hl
      obtain ⟨h, t, hsp⟩ : ∃ h t, splitNl rest = h :: t := by
        cases hu : splitNl rest with
        | nil => exact absurd hu (splitNl_ne_nil rest)
        | cons h t => exact ⟨h, t, rfl⟩
      rw [hsp] at hl
      rcases List.mem_cons.mp hl with h1 | h1
      · subst h1
        intro hmem
        rcases List.mem_cons.mp hmem with h2 | h2
        · exact hc h2.symm
        · exact ih h (by rw [hsp]; exact List.mem_cons_self _ _) h2
      · exact ih l (by rw [hsp]; exact List.mem_cons_of_mem _ h1)

theorem splitNl_eq_single {x : Str} (h : ('\n' : Char) ∉ x) : splitNl x = [x] := by
  induction x with
  | nil => rfl
  | cons c rest ih =>
    simp only [List.mem_cons, not_or] at h
    have hc : ¬c = '\n' := fun hh => h.1 hh.symm
    simp [splitNl, hc, ih h.2]

theorem joinNl_nil : joinNl [] = [] := rfl

theorem joinNl_single (x : Str) : joinNl [x] = x := rfl

theorem joinNl_cons₂ (x y : Str) (t : List Str) :
    joinNl (x :: y :: t) = x ++ '\n' :: joinNl (y :: t) := by
  simp [joinNl, joinSep]

theorem splitNl_append_nl (u v : Str) :
    splitNl (u ++ '\n' :: v) = splitNl u ++ splitNl v := by
  induction u with
  | nil => simp [splitNl]
  | cons c u ih =>
    by_cases hc : c = '\n'
    · subst hc
      simp [splitNl, ih]
    · obtain ⟨h, t, hsp⟩ : ∃ h t, splitNl u = h :: t := by
        cases hu : splitNl u with
        | nil => exact absurd hu (splitNl_ne_nil u)
        | cons h t => exact ⟨h, t, rfl⟩
      simp only [List.cons_append, List.append_eq, splitNl, if_neg hc]
      rw [ih, hsp]
      simp [hsp]

theorem splitNl_joinNl {XS : List Str} (h0 : XS ≠ [])
    (h1 : ∀ x ∈ XS, ('\n' : Char) ∉ x) : splitNl (joinNl XS) = XS := by
  induction XS with
  | nil => exact absurd rfl h0
  | cons x t ih =>
    cases t with
    | nil => rw [joinNl_single, splitNl_eq_single (h1 x (by simp))]
    | cons y tt =>
      rw [joinNl_cons₂, splitNl_append_nl, splitNl_eq_single (h1 x (by simp)),
        ih (by simp) (fun z hz => h1 z (List.mem_cons_of_mem _ hz))]
      rfl

theorem splitNl_joinNl_flatten {XS : List Str} (h0 : XS ≠ []) :
    splitNl (joinNl XS) = (XS.map splitNl).flatten := by
  induction XS with
  | nil => exact absurd rfl h0
  | cons x t ih =>
    cases t with
    | nil => simp [joinNl_single]
    | cons y tt =>
      rw [joinNl_cons₂, splitNl_append_nl, ih (by simp)]
      simp

/- ------------------------------------------------------------------
Lemmas: the frontmatter shift loop and findIndex
------------------------------------------------------------------ -/

theorem dropThroughDashes_mid {mids rest : List Str}
    (h : ∀ m ∈ mids, m ≠ str "---") :
    dropThroughDashes 1 (mids ++ str "---" :: rest) = rest := by
  induction mids with
  | nil => simp [dropThroughDashes]
  | cons m t ih =>
    simp only [List.cons_append, dropThroughDashes, if_neg (h m (by simp))]
    exact ih (fun z hz => h z (by simp [hz]))

theorem dropThroughDashes_fm {mids rest : List Str}
    (h : ∀ m ∈ mids, m ≠ str "---") :
    dropThroughDashes 0 (str "---" :: (mids ++ str "---" :: rest)) = rest := by
  have step : dropThroughDashes 0 (str "---" :: (mids ++ str "---" :: rest)) =
      dropThroughDashes 1 (mids ++ str "---" :: rest) := by
    simp [dropThroughDashes]
  rw [step, dropThroughDashes_mid h]

theorem firstIdxP_eq_none {p : Str → Bool} {ls : List Str}
    (h : ∀ l ∈ ls, p l = false) : firstIdxP p ls = none := by
  induction ls with
  | nil => rfl
  | cons l t ih =>
    simp only [firstIdxP, h l (by simp)]
    simp [ih (fun z hz => h z (by simp [hz]))]

theorem firstIdxP_cons_true {p : Str → Bool} {l : Str} {t : List Str}
    (h : p l = true) : firstIdxP p (l :: t) = some 0 := by
  simp [firstIdxP, h]

theorem firstIdxP_append_not {p : Str → Bool} {xs ys : List Str}
    (h : ∀ l ∈ xs, p l = false) :
    firstIdxP p (xs ++ ys) = (firstIdxP p ys).map (· + xs.length) := by
  induction xs with
  | nil => simp
  | cons x t ih =>
    have hx : p x = false := h x (by simp)
    rw [show (x :: t) ++ ys = x :: (t ++ ys) from rfl]
    simp only [firstIdxP, hx]
    rw [if_neg (by simp), ih (fun z hz => h z (by simp [hz]))]
    cases firstIdxP p ys <;> simp <;> omega

theorem str_contains_iff {l : List Str} {a : Str} : l.contains a = true ↔ a ∈ l := by
  simp [List.contains]

theorem mem_dropThroughDashes {n : Nat} {ls : List Str} :
    ∀ l ∈ dropThroughDashes n ls, l ∈ ls := by
  induction ls generalizing n with
  | nil => intro l hl; simp [dropThroughDashes] at hl
  | cons x t ih =>
    intro l hl
    simp only [dropThroughDashes] at hl
    by_cases hx : x = str "---"
    · rw [if_pos hx] at hl
      by_cases hn : n + 1 = 2
      · rw [if_pos hn] at hl
        exact List.mem_cons_of_mem _ hl
      · rw [if_neg hn] at hl
        exact List.mem_cons_of_mem _ (ih l hl)
    · rw [if_neg hx] at hl
      exact List.mem_cons_of_mem _ (ih l hl)

theorem isEmpty_append_singleton (l : Str) (c : Char) : (l ++ [c]).isEmpty = false := by
  cases l <;> rfl

theorem fm_lines_ok {mids : List Str}
    (hmids : ∀ m ∈ mids, ('\n' : Char) ∉ m ∧ m ≠ str "---") :
    (str "---" :: mids ++ [str "---"]) ≠ [] ∧
      ∀ x ∈ str "---" :: mids ++ [str "---"], ('\n' : Char) ∉ x := by
  constructor
  · simp
  · intro x hx
    rcases List.mem_cons.mp hx with h | h
    · subst h; decide
    · rcases List.mem_append.mp h with h1 | h1
      · exact (hmids x h1).1
      · simp only [List.mem_singleton] at h1; subst h1; decide

/-- The body lines the second merge run sees: the first run's output is
the frontmatter string followed by the joined final entries, and
stripping the frontmatter recovers exactly those entries. -/
theorem diaryBodyLines_roundtrip {fm : Str} (hfm : fmWellformed fm) (X : List Str)
    (hX : X ≠ []) (hXn : ∀ x ∈ X, ('\n' : Char) ∉ x) :
    diaryBodyLines fm (fm ++ joinNl X) = X := by
  rcases hfm with h | ⟨mids, hmids, hfmeq⟩
  · subst h
    simp only [diaryBodyLines, List.nil_append, List.isEmpty_nil, if_pos]
    exact splitNl_joinNl hX hXn
  · obtain ⟨hne, hnl⟩ := fm_lines_ok hmids
    have hfmne : fm.isEmpty = false := by
      rw [hfmeq]
      have : joinNl (str "---" :: mids ++ [str "---"]) ++ ['\n'] =
          (joinNl (str "---" :: mids ++ [str "---"]) ++ []) ++ ['\n'] := by simp
      rw [this]
      exact isEmpty_append_singleton _ _
    simp only [diaryBodyLines, hfmne, Bool.false_eq_true, if_false]
    have hsplit : splitNl (fm ++ joinNl X) =
        (str "---" :: mids ++ [str "---"]) ++ splitNl (joinNl X) := by
      rw [hfmeq]
      have : (joinNl (str "---" :: mids ++ [str "---"]) ++ ['\n']) ++ joinNl X =
          joinNl (str "---" :: mids ++ [str "---"]) ++ '\n' :: joinNl X := by simp
      rw [this, splitNl_append_nl, splitNl_joinNl hne hnl]
    rw [hsplit, splitNl_joinNl hX hXn]
    have hshape : (str "---" :: mids ++ [str "---"]) ++ X =
        str "---" :: (mids ++ str "---" :: X) := by simp
    rw [hshape]
    exact dropThroughDashes_fm (fun m hm => (hmids m hm).2)

/-- Claim C1 (amended): the diary merge is idempotent when every
rendered entry is free of newline characters (as with the List
variant): applying the vault.process transform a second time, with the
same entries and the same well-formed frontmatter string, to the text
the first application produced returns that text unchanged. -/
theorem claim_C1 (fm sort data : Str) (entries : List Str)
    (hfm : fmWellformed fm) (hent : ∀ e ∈ entries, ('\n' : Char) ∉ e) :
    updateDiaryTransform fm sort entries (updateDiaryTransform fm sort entries data) =
      updateDiaryTransform fm sort entries data := by
  have hbodyn : ∀ l ∈ diaryBodyLines fm data, ('\n' : Char) ∉ l := by
    intro l hl
    unfold diaryBodyLines at hl
    by_cases hfe : fm.isEmpty
    · rw [if_pos hfe] at hl
      exact mem_splitNl_not_nl l hl
    · rw [if_neg hfe] at hl
      exact mem_splitNl_not_nl l (mem_dropThroughDashes l hl)
  set body := diaryBodyLines fm data with hbody
  set newE := entries.filter (fun e => !body.contains e) with hnewE
  set finalE := (if sort = str "Old" then body ++ newE else newE ++ body) with hfinalE
  have hout1 : updateDiaryTransform fm sort entries data = fm ++ joinNl finalE := rfl
  have hfinn : ∀ x ∈ finalE, ('\n' : Char) ∉ x := by
    intro x hx
    rw [hfinalE] at hx
    have hx' : x ∈ body ∨ x ∈ newE := by
      by_cases hs : sort = str "Old"
      · rw [if_pos hs] at hx
        rcases List.mem_append.mp hx with h | h
        · exact Or.inl h
        · exact Or.inr h
      · rw [if_neg hs] at hx
        rcases List.mem_append.mp hx with h | h
        · exact Or.inr h
        · exact Or.inl h
    rcases hx' with h | h
    · exact hbodyn x h
    · exact hent x (List.mem_of_mem_filter h)
  by_cases hFE : finalE = []
  · -- degenerate case: empty body and no entries
    have hbe : body = [] ∧ newE = [] := by
      by_cases hs : sort = str "Old"
      · rw [hfinalE, if_pos hs] at hFE
        exact List.append_eq_nil.mp hFE
      · rw [hfinalE, if_neg hs] at hFE
        obtain ⟨a, b⟩ := List.append_eq_nil.mp hFE
        exact ⟨b, a⟩
    have hents : entries = [] := by
      have : newE = entries := by
        rw [hnewE, hbe.1]
        simp
      rw [← this, hbe.2]
    rw [hout1, hFE, joinNl_nil, List.append_nil]
    subst hents
    -- second run on the bare frontmatter string with no entries
    unfold updateDiaryTransform
    simp only [List.filter_nil]
    rcases hfm with h | ⟨mids, hmids, hfmeq⟩
    · subst h
      simp [diaryBodyLines, joinNl, joinSep, splitNl]
    · obtain ⟨hne, hnl⟩ := fm_lines_ok hmids
      have hfmne : fm.isEmpty = false := by
        rw [hfmeq]
        have : joinNl (str "---" :: mids ++ [str "---"]) ++ ['\n'] =
            (joinNl (str "---" :: mids ++ [str "---"]) ++ []) ++ ['\n'] := by simp
        rw [this]
        exact isEmpty_append_singleton _ _
      have hsplit : splitNl fm = (str "---" :: mids ++ [str "---"]) ++ [[]] := by
        rw [hfmeq]
        have : joinNl (str "---" :: mids ++ [str "---"]) ++ ['\n'] =
            joinNl (str "---" :: mids ++ [str "---"]) ++ '\n' :: [] := by simp
        rw [this, splitNl_append_nl, splitNl_joinNl hne hnl]
        rfl
      have hshape : (str "---" :: mids ++ [str "---"]) ++ [([] : Str)] =
          str "---" :: (mids ++ str "---" :: [([] : Str)]) := by simp
      simp only [diaryBodyLines, hfmne, Bool.false_eq_true, if_false, hsplit, hshape,
        dropThroughDashes_fm (fun m hm => (hmids m hm).2)]
      have : joinNl [([] : Str)] = [] := rfl
      split <;> simp [this]
  · -- main case
    have hround : diaryBodyLines fm (fm ++ joinNl finalE) = finalE :=
      diaryBodyLines_roundtrip hfm finalE hFE hfinn
    have hfilter2 : entries.filter (fun e => !finalE.contains e) = [] := by
      rw [List.filter_eq_nil_iff]
      intro e he
      have hmem : e ∈ finalE := by
        by_cases hb : e ∈ body
        · rw [hfinalE]
          by_cases hs : sort = str "Old"
          · rw [if_pos hs]; exact List.mem_append_left _ hb
          · rw [if_neg hs]; exact List.mem_append_right _ hb
        · have hn : e ∈ newE := by
            rw [hnewE]
            refine List.mem_filter.mpr ⟨he, ?_⟩
            simp only [Bool.not_eq_true']
            rw [← Bool.not_eq_true]
            intro hc
            exact hb (str_contains_iff.mp hc)
          rw [hfinalE]
          by_cases hs : sort = str "Old"
          · rw [if_pos hs]; exact List.mem_append_right _ hn
          · rw [if_neg hs]; exact List.mem_append_left _ hn
      simp [str_contains_iff.mpr hmem, hmem]
    rw [hout1]
    simp only [updateDiaryTransform, hround, hfilter2]
    split <;> simp

/-- Claim C1 witness: a concrete second merge run that is the identity
(one newline-free entry, empty frontmatter, sort Old). -/
theorem claim_C1_witness :
    updateDiaryTransform [] (str "Old") [str "- A"]
        (updateDiaryTransform [] (str "Old") [str "- A"] (str "- B")) =
      updateDiaryTransform [] (str "Old") [str "- A"] (str "- B") :=
  claim_C1 [] (str "Old") (str "- B") [str "- A"] (Or.inl rfl) (by decide)

/-- Claim C1, as stated, is false: with the Callout display variant the
rendered entry ends in a newline, so the second diary merge does not
find it among the body lines and appends it again; and the entity-note
merge is not idempotent either, since its second application after
creating the managed section appends a trailing newline. -/
theorem claim_C1_counterexample :
    (updateDiaryTransform [] (str "Old")
        [generateDiaryEntryCore cfgCallout itemWatched (str "T") none]
        (createDiaryText [generateDiaryEntryCore cfgCallout itemWatched (str "T") none]) ≠
      createDiaryText [generateDiaryEntryCore cfgCallout itemWatched (str "T") none]) ∧
    (rebuildMovieNoteContent
        (rebuildMovieNoteContent (str "Hello") [] (str "- X")) [] (str "- X") ≠
      rebuildMovieNoteContent (str "Hello") [] (str "- X")) := by
  constructor
  · decide
  · decide

/-- Claim C2: dedup-by-line in the diary merge. Entries already present
as a body line (by exact string equality) are filtered out: the merge
of a batch equals the merge of the batch with every copy of an
already-present line L removed, and a batch all of whose entries are
already present leaves the body exactly unchanged (in particular its
line count). -/
theorem claim_C2 (fm sort data : Str) (batch : List Str) (L : Str)
    (hL : L ∈ diaryBodyLines fm data) :
    updateDiaryTransform fm sort batch data =
      updateDiaryTransform fm sort (batch.filter (fun e => decide (e ≠ L))) data ∧
    ((∀ e ∈ batch, e ∈ diaryBodyLines fm data) →
      updateDiaryTransform fm sort batch data = fm ++ joinNl (diaryBodyLines fm data)) := by
  constructor
  · have hfe : (batch.filter (fun e => decide (e ≠ L))).filter
        (fun e => !(diaryBodyLines fm data).contains e) =
        batch.filter (fun e => !(diaryBodyLines fm data).contains e) := by
      rw [List.filter_filter]
      apply List.filter_congr
      intro a ha
      by_cases haL : a = L
      · subst haL
        simp [str_contains_iff.mpr hL, hL]
      · simp [haL]
    simp only [updateDiaryTransform, hfe]
  · intro hall
    have hnil : batch.filter (fun e => !(diaryBodyLines fm data).contains e) = [] := by
      rw [List.filter_eq_nil_iff]
      intro e he
      simp [str_contains_iff.mpr (hall e he), hall e he]
    simp only [updateDiaryTransform, hnil]
    split <;> simp

/-- Claim C2 witness: merging a batch that contains an already-present
line - B behaves as if - B were absent from the batch, and a batch of
only present lines leaves the body unchanged. -/
theorem claim_C2_witness :
    updateDiaryTransform [] (str "Old") [str "- B", str "- C"] (str "- B") =
      updateDiaryTransform [] (str "Old")
        (List.filter (fun e => decide (e ≠ str "- B")) [str "- B", str "- C"]) (str "- B") ∧
    updateDiaryTransform [] (str "Old") [str "- B"] (str "- B") =
      [] ++ joinNl (diaryBodyLines [] (str "- B")) :=
  ⟨(claim_C2 [] (str "Old") (str "- B") [str "- B", str "- C"] (str "- B") (by decide)).1,
   (claim_C2 [] (str "Old") (str "- B") [str "- B"] (str "- B") (by decide)).2 (by decide)⟩

/-- Claim C4: order preservation in the diary merge. With sort Old the
output is the existing body followed by the filtered new entries in
their given (feed-ascending) order, with sort New the filtered new
entries precede the body; and the driver sorts the feed ascending by
publish-date value for Old and descending otherwise. -/
theorem claim_C4 (s : LetterboxdSettings) (fm data : Str) (entries : List Str)
    (items : List RSSEntry) :
    (updateDiaryTransform fm (str "Old") entries data =
      fm ++ joinNl (diaryBodyLines fm data ++
        entries.filter (fun e => !(diaryBodyLines fm data).contains e))) ∧
    (updateDiaryTransform fm (str "New") entries data =
      fm ++ joinNl (entries.filter (fun e => !(diaryBodyLines fm data).contains e) ++
        diaryBodyLines fm data)) ∧
    (s.sort = str "Old" →
      (sortItems s items).Sorted
        (fun a b => s.dateValue a.pubDate ≤ s.dateValue b.pubDate)) ∧
    (s.sort ≠ str "Old" →
      (sortItems s items).Sorted
        (fun a b => s.dateValue b.pubDate ≤ s.dateValue a.pubDate)) := by
  have hsorted : List.Sorted (itemOrder s) (sortItems s items) := by
    haveI : IsTotal RSSEntry (itemOrder s) := ⟨fun a b => by
      unfold itemOrder
      split
      · exact Int.le_total _ _
      · exact Int.le_total _ _⟩
    haveI : IsTrans RSSEntry (itemOrder s) := ⟨fun a b c hab hbc => by
      unfold itemOrder at hab hbc ⊢
      by_cases hO : s.sort = str "Old"
      · rw [if_pos hO] at hab hbc ⊢
        exact le_trans hab hbc
      · rw [if_neg hO] at hab hbc ⊢
        exact le_trans hbc hab⟩
    exact List.sorted_insertionSort _ _
  refine ⟨?_, ?_, ?_, ?_⟩
  · simp [updateDiaryTransform]
  · simp only [updateDiaryTransform]
    rw [if_neg (by decide)]
  · intro hO
    exact List.Pairwise.imp (fun hab => by simpa [itemOrder, hO] using hab) hsorted
  · intro hO
    exact List.Pairwise.imp (fun hab => by simpa [itemOrder, hO] using hab) hsorted

/-- Claim C4 witness: the sortedness conclusions at a concrete
configuration and item list. -/
theorem claim_C4_witness :
    List.Sorted (fun a b => cfgCallout.dateValue a.pubDate ≤ cfgCallout.dateValue b.pubDate)
      (sortItems cfgCallout [itemMarked, itemWatched]) :=
  (claim_C4 cfgCallout [] [] [] [itemMarked, itemWatched]).2.2.1 (by decide)

/-- Claim C6: unclosed-frontmatter recovery. A diary document whose
first line is the delimiter with no closing delimiter line is a format
error for the modelled host parse (none); the merge then treats it as
having no frontmatter and keeps the whole text as body, and no line of
the input is dropped from the merged output. -/
theorem claim_C6 (data : Str) (entries : List Str) (sort : Str) (rest : List Str)
    (hsplit : splitNl data = str "---" :: rest)
    (hnoclose : ∀ l ∈ rest, l ≠ str "---") :
    parseFrontmatter data = none ∧
    updateDiaryFile sort entries data =
      joinNl (if sort = str "Old"
        then splitNl data ++ entries.filter (fun e => !(splitNl data).contains e)
        else entries.filter (fun e => !(splitNl data).contains e) ++ splitNl data) ∧
    ∀ l ∈ splitNl data, l ∈ splitNl (updateDiaryFile sort entries data) := by
  have hparse : parseFrontmatter data = none := by
    have hidx : firstIdxP (fun l => decide (l = str "---")) rest = none :=
      firstIdxP_eq_none (fun l hl => by simp [hnoclose l hl])
    unfold parseFrontmatter
    rw [hsplit]
    simp [hidx]
  have hfm : obsidianFmStr data = [] := by
    unfold obsidianFmStr
    rw [hparse]
  have hmain : updateDiaryFile sort entries data =
      joinNl (if sort = str "Old"
        then splitNl data ++ entries.filter (fun e => !(splitNl data).contains e)
        else entries.filter (fun e => !(splitNl data).contains e) ++ splitNl data) := by
    unfold updateDiaryFile
    rw [hfm]
    simp only [updateDiaryTransform, diaryBodyLines, List.isEmpty_nil, if_true,
      List.nil_append]
  refine ⟨hparse, hmain, ?_⟩
  intro l hl
  rw [hmain]
  have hFne : (if sort = str "Old"
      then splitNl data ++ entries.filter (fun e => !(splitNl data).contains e)
      else entries.filter (fun e => !(splitNl data).contains e) ++ splitNl data) ≠ [] := by
    split
    · intro hc
      exact splitNl_ne_nil data (List.append_eq_nil.mp hc).1
    · intro hc
      exact splitNl_ne_nil data (List.append_eq_nil.mp hc).2
  have hmemF : l ∈ (if sort = str "Old"
      then splitNl data ++ entries.filter (fun e => !(splitNl data).contains e)
      else entries.filter (fun e => !(splitNl data).contains e) ++ splitNl data) := by
    split
    · exact List.mem_append_left _ hl
    · exact List.mem_append_right _ hl
  rw [splitNl_joinNl_flatten hFne]
  refine List.mem_flatten.mpr ⟨[l], ?_, by simp⟩
  refine List.mem_map.mpr ⟨l, hmemF, ?_⟩
  exact splitNl_eq_single (mem_splitNl_not_nl l hl)

/-- Claim C6 witness: a concrete document opening a frontmatter block
that never closes, merged with one entry. -/
theorem claim_C6_witness :
    parseFrontmatter (str "---\nk: v\nBody") = none ∧
    updateDiaryFile (str "Old") [str "- E"] (str "---\nk: v\nBody") =
      joinNl (if str "Old" = str "Old"
        then splitNl (str "---\nk: v\nBody") ++
          [str "- E"].filter (fun e => !(splitNl (str "---\nk: v\nBody")).contains e)
        else [str "- E"].filter (fun e => !(splitNl (str "---\nk: v\nBody")).contains e) ++
          splitNl (str "---\nk: v\nBody")) :=
  ⟨(claim_C6 (str "---\nk: v\nBody") [str "- E"] (str "Old")
      [str "k: v", str "Body"] (by decide) (by decide)).1,
   (claim_C6 (str "---\nk: v\nBody") [str "- E"] (str "Old")
      [str "k: v", str "Body"] (by decide) (by decide)).2.1⟩

theorem sw_self_append (p w : Str) : startsWithStr (p ++ w) p = true := by
  induction p with
  | nil => cases w <;> rfl
  | cons c t ih => simp [startsWithStr, ih]

theorem sw_prepend {w q : Str} (u : Str) (h : startsWithStr w q = true) :
    startsWithStr (u ++ w) (u ++ q) = true := by
  induction u with
  | nil => simpa using h
  | cons c t ih => simp [startsWithStr, ih]

/-- Claim C9 (amended): the display-date rule holds for every variant
(watched date under the link format as a wikilink when linkDate is set,
else the display format; absent watched date falls back to the publish
date under the display format, never linked), and the verbs Watched and
Marked as watched appear as claimed for the List and ListReview
variants; the Callout variants instead head the entry with Review: or
Watched: and never use the Marked-as-watched verb (see the
counterexample). -/
theorem claim_C9 (s : LetterboxdSettings) (item : RSSEntry) (t : Str)
    (ilink : Option Str) (ht : item.filmTitle = some t) :
    (∀ d, item.watchedDate = some d →
      diaryDisplayDate s item =
        (if s.linkDate then str "[[" ++ getFormattedDate s d s.dateFormat ++ str "]]"
         else getFormattedDate s d s.displayDateFormat)) ∧
    (item.watchedDate = none →
      diaryDisplayDate s item = getFormattedDate s item.pubDate s.displayDateFormat) ∧
    (∀ link stars d, item.watchedDate = some d →
      diaryWatchedPhrase s item link stars =
        str "Watched " ++ link ++ [' '] ++ stars ++ str " on " ++ diaryDisplayDate s item) ∧
    (∀ link stars, item.watchedDate = none →
      diaryWatchedPhrase s item link stars =
        str "Marked as watched " ++ link ++ [' '] ++ stars ++ str " on " ++
          diaryDisplayDate s item) ∧
    ((s.callout = CalloutStyle.list ∨ s.callout = CalloutStyle.listReview) →
      ∀ e, generateDiaryEntry s item ilink = some e →
        ((∃ d, item.watchedDate = some d) →
          startsWithStr e (str "- Watched ") = true) ∧
        (item.watchedDate = none →
          startsWithStr e (str "- Marked as watched ") = true)) ∧
    ((s.callout = CalloutStyle.callout ∨ s.callout = CalloutStyle.calloutPoster) →
      ∀ e, generateDiaryEntry s item ilink = some e →
        startsWithStr e (str "> [!letterboxd]+ Review: ") = true ∨
        startsWithStr e (str "> [!letterboxd]+ Watched: ") = true) := by
  refine ⟨?_, ?_, ?_, ?_, ?_, ?_⟩
  · intro d hd
    simp [diaryDisplayDate, hd]
  · intro hd
    simp [diaryDisplayDate, hd]
  · intro link stars d hd
    simp [diaryWatchedPhrase, hd]
  · intro link stars hd
    simp [diaryWatchedPhrase, hd]
  · intro hc e he
    have hee : e = generateDiaryEntryCore s item t ilink := by
      rw [generateDiaryEntry, ht] at he
      exact (Option.some_inj.mp he).symm
    subst hee
    constructor
    · rintro ⟨d, hd⟩
      have hphrase : ∀ link stars, diaryWatchedPhrase s item link stars =
          str "Watched " ++ (link ++ [' '] ++ stars ++ str " on " ++ diaryDisplayDate s item) := by
        intro link stars
        simp [diaryWatchedPhrase, hd, List.append_assoc]
      rcases hc with hc | hc <;>
        · simp only [generateDiaryEntryCore, hc, hphrase]
          rw [show str "- Watched " = str "- " ++ str "Watched " from by decide]
          try simp only [List.append_assoc]
          exact sw_prepend _ (sw_self_append _ _)
    · intro hd
      have hphrase : ∀ link stars, diaryWatchedPhrase s item link stars =
          str "Marked as watched " ++
            (link ++ [' '] ++ stars ++ str " on " ++ diaryDisplayDate s item) := by
        intro link stars
        simp [diaryWatchedPhrase, hd, List.append_assoc]
      rcases hc with hc | hc <;>
        · simp only [generateDiaryEntryCore, hc, hphrase]
          rw [show str "- Marked as watched " = str "- " ++ str "Marked as watched " from by decide]
          try simp only [List.append_assoc]
          exact sw_prepend _ (sw_self_append _ _)
  · intro hc e he
    have hee : e = generateDiaryEntryCore s item t ilink := by
      rw [generateDiaryEntry, ht] at he
      exact (Option.some_inj.mp he).symm
    subst hee
    rcases hc with hc | hc <;>
      · simp only [generateDiaryEntryCore, hc]
        split
        · left
          rw [show str "> [!letterboxd]+ Review: " =
            str "> [!letterboxd]+ " ++ str "Review: " from by decide]
          try simp only [List.append_assoc]
          exact sw_prepend _ (sw_self_append _ _)
        · right
          rw [show str "> [!letterboxd]+ Watched: " =
            str "> [!letterboxd]+ " ++ str "Watched: " from by decide]
          try simp only [List.append_assoc]
          exact sw_prepend _ (sw_self_append _ _)

/-- Claim C9 witness: the List variant with a watched date begins with
the Watched verb at a concrete record and configuration. -/
theorem claim_C9_witness :
    startsWithStr (generateDiaryEntryCore cfgList itemWatched (str "T") none)
      (str "- Watched ") = true :=
  (((claim_C9 cfgList itemWatched (str "T") none rfl).2.2.2.2.1 (Or.inl rfl)
    (generateDiaryEntryCore cfgList itemWatched (str "T") none) rfl).1
    ⟨str "2024-01-01", rfl⟩)

/-- Claim C9, as stated, is false: for a record without a watched date
rendered under the Callout variant, the entry never contains the verb
Marked as watched (the callout heads with Watched: or Review:
instead). -/
theorem claim_C9_counterexample :
    itemMarked.watchedDate = none ∧
    generateDiaryEntry cfgCallout itemMarked none =
      some (generateDiaryEntryCore cfgCallout itemMarked (str "T") none) ∧
    containsSub (generateDiaryEntryCore cfgCallout itemMarked (str "T") none)
      (str "Marked as watched") = false := by
  refine ⟨rfl, rfl, by decide⟩

theorem sw_nil_elim {t : Str} (h : startsWithStr [] t = true) : t = [] := by
  cases t with
  | nil => rfl
  | cons c w => simp [startsWithStr] at h

theorem sw_sound {s t : Str} (h : startsWithStr s t = true) : ∃ w, s = t ++ w := by
  induction s generalizing t with
  | nil => exact ⟨[], by simp [sw_nil_elim h]⟩
  | cons c cs ih =>
    cases t with
    | nil => exact ⟨c :: cs, rfl⟩
    | cons d ds =>
      simp only [startsWithStr, Bool.and_eq_true, decide_eq_true_eq] at h
      obtain ⟨w, hw⟩ := ih h.2
      exact ⟨w, by rw [h.1, hw]; rfl⟩

theorem containsSub_of_sw {s t : Str} (h : startsWithStr s t = true) :
    containsSub s t = true := by
  cases s with
  | nil => simpa [containsSub] using h
  | cons c cs => simp [containsSub, h]

theorem containsSub_append_right {v t : Str} (u : Str) (h : containsSub v t = true) :
    containsSub (u ++ v) t = true := by
  induction u with
  | nil => simpa using h
  | cons c cs ih => simp [containsSub, ih]

theorem sw_extend {s t w : Str} (h : startsWithStr s t = true) :
    startsWithStr (s ++ w) t = true := by
  obtain ⟨r, hr⟩ := sw_sound h
  subst hr
  rw [List.append_assoc]
  exact sw_self_append _ _

theorem containsSub_append_left {u t : Str} (v : Str) (h : containsSub u t = true) :
    containsSub (u ++ v) t = true := by
  induction u with
  | nil =>
    have ht := sw_nil_elim (by simpa [containsSub] using h)
    subst ht
    cases v <;> simp [containsSub, startsWithStr]
  | cons c cs ih =>
    simp only [containsSub, Bool.or_eq_true] at h
    rcases h with h | h
    · simp only [List.cons_append, containsSub, Bool.or_eq_true]
      exact Or.inl (sw_extend h)
    · simp only [List.cons_append, containsSub, Bool.or_eq_true]
      exact Or.inr (ih h)

theorem containsSub_mid (u t w : Str) : containsSub (u ++ (t ++ w)) t = true :=
  containsSub_append_right u (containsSub_of_sw (sw_self_append t w))

theorem containsSub_sound {s t : Str} (h : containsSub s t = true) :
    ∃ u w, s = u ++ t ++ w := by
  induction s with
  | nil =>
    have ht := sw_nil_elim (by simpa [containsSub] using h)
    subst ht
    exact ⟨[], [], rfl⟩
  | cons c cs ih =>
    simp only [containsSub, Bool.or_eq_true] at h
    rcases h with h | h
    · obtain ⟨w, hw⟩ := sw_sound h
      exact ⟨[], w, by rw [hw]; rfl⟩
    · obtain ⟨u, w, huw⟩ := ih h
      exact ⟨c :: u, w, by rw [huw]; rfl⟩

theorem char_mem_of_containsSub {s t : Str} (h : containsSub s t = true) :
    ∀ c ∈ t, c ∈ s := by
  obtain ⟨u, w, huw⟩ := containsSub_sound h
  intro c hc
  rw [huw]
  exact List.mem_append_left _ (List.mem_append_right _ hc)

theorem mem_joinSep_containsSub {l : List Str} {p t : Str} (sep : Str)
    (hp : p ∈ l) (h : containsSub p t = true) :
    containsSub (joinSep sep l) t = true := by
  induction l with
  | nil => simp at hp
  | cons x rest ih =>
    rcases List.mem_cons.mp hp with hx | hx
    · subst hx
      cases rest with
      | nil => simpa [joinSep] using h
      | cons y t2 =>
        obtain ⟨u, w, huw⟩ := containsSub_sound h
        have : joinSep sep (p :: y :: t2) = u ++ (t ++ (w ++ sep ++ joinSep sep (y :: t2))) := by
          simp [joinSep, huw]
        rw [this]
        exact containsSub_mid _ _ _
    · cases rest with
      | nil => simp at hx
      | cons y t2 =>
        have : joinSep sep (x :: y :: t2) = (x ++ sep) ++ joinSep sep (y :: t2) := by
          simp [joinSep]
        rw [this]
        exact containsSub_append_right _ (ih hx)

theorem mem_dropWhile_of_not {c : Char} {l : Str} {p : Char → Bool}
    (hc : c ∈ l) (hp : p c = false) : c ∈ l.dropWhile p := by
  induction l with
  | nil => simp at hc
  | cons x t ih =>
    by_cases hx : p x = true
    · rw [List.dropWhile_cons_of_pos hx]
      rcases List.mem_cons.mp hc with h | h
      · subst h; rw [hp] at hx; simp at hx
      · exact ih h
    · rw [List.dropWhile_cons_of_neg hx]
      exact hc

theorem mem_trimStr_of_not_ws {c : Char} {l : Str} (hc : c ∈ l) (hw : isWs c = false) :
    c ∈ trimStr l := by
  unfold trimStr dropTrailingWs
  have h1 : c ∈ l.dropWhile isWs := mem_dropWhile_of_not hc hw
  have h2 : c ∈ (l.dropWhile isWs).reverse := List.mem_reverse.mpr h1
  exact List.mem_reverse.mpr (mem_dropWhile_of_not h2 hw)

theorem trimStr_ne_nil {c : Char} {l : Str} (hc : c ∈ l) (hw : isWs c = false) :
    trimStr l ≠ [] :=
  List.ne_nil_of_mem (mem_trimStr_of_not_ws hc hw)

theorem trimStr_decomp (l : Str) : ∃ u w, l = u ++ trimStr l ++ w := by
  have h2 : ∀ m : Str, m = dropTrailingWs m ++ (m.reverse.takeWhile isWs).reverse := by
    intro m
    unfold dropTrailingWs
    rw [← List.reverse_append, List.takeWhile_append_dropWhile, List.reverse_reverse]
  refine ⟨l.takeWhile isWs, ((l.dropWhile isWs).reverse.takeWhile isWs).reverse, ?_⟩
  conv_lhs => rw [← List.takeWhile_append_dropWhile isWs l]
  rw [List.append_assoc]
  congr 1
  exact h2 (l.dropWhile isWs)

theorem containsSub_trim_le {q t : Str} (h : containsSub (trimStr q) t = true) :
    containsSub q t = true := by
  obtain ⟨u, w, huw⟩ := trimStr_decomp q
  rw [huw, List.append_assoc]
  exact containsSub_append_right _ (containsSub_append_left _ h)

/-- Claim C10: asymmetry of review extraction. When the description has
a paragraph containing the phrase Watched on and also a nonempty
paragraph not containing it, the diary-side extraction returns no
review at all, while the entity-note extraction returns a nonempty
blockquote built from exactly the trimmed nonempty paragraphs that do
not contain the phrase. -/
theorem claim_C10 (paragraphs : List Str)
    (h1 : ∃ p ∈ paragraphs, containsSub p (str "Watched on") = true)
    (h2 : ∃ q ∈ paragraphs, (trimStr q).isEmpty = false ∧
      containsSub q (str "Watched on") = false) :
    extractReview paragraphs = none ∧
    extractReviewBlockquote paragraphs =
      joinSep (str "\n>\n")
        (((paragraphs.map trimStr).filter
            (fun t => !t.isEmpty && !containsSub t (str "Watched on"))).map
          (fun p => str "> " ++ p)) ∧
    extractReviewBlockquote paragraphs ≠ [] := by
  obtain ⟨p, hpmem, hpc⟩ := h1
  obtain ⟨q, hqmem, hqne, hqc⟩ := h2
  have hWp : ('W' : Char) ∈ p :=
    char_mem_of_containsSub hpc 'W' (by decide)
  have hptrim : (trimStr p).isEmpty = false := by
    rw [List.isEmpty_eq_false]
    exact List.ne_nil_of_mem (mem_trimStr_of_not_ws hWp (by decide))
  refine ⟨?_, ?_, ?_⟩
  · unfold extractReview
    rw [if_pos]
    refine mem_joinSep_containsSub _ ?_ hpc
    exact List.mem_filter.mpr ⟨hpmem, by simp [hptrim]⟩
  · have hmem : trimStr q ∈ (paragraphs.map trimStr).filter
        (fun t => !t.isEmpty && !containsSub t (str "Watched on")) := by
      refine List.mem_filter.mpr ⟨List.mem_map_of_mem _ hqmem, ?_⟩
      have htc : containsSub (trimStr q) (str "Watched on") = false := by
        cases hcc : containsSub (trimStr q) (str "Watched on") with
        | false => rfl
        | true => rw [containsSub_trim_le hcc] at hqc; exact hqc
      simp [hqne, htc]
    unfold extractReviewBlockquote
    rw [if_neg (by intro hh; rw [List.isEmpty_iff.mp hh] at hmem; simp at hmem)]
  · have hmem : trimStr q ∈ (paragraphs.map trimStr).filter
        (fun t => !t.isEmpty && !containsSub t (str "Watched on")) := by
      refine List.mem_filter.mpr ⟨List.mem_map_of_mem _ hqmem, ?_⟩
      have htc : containsSub (trimStr q) (str "Watched on") = false := by
        cases hcc : containsSub (trimStr q) (str "Watched on") with
        | false => rfl
        | true => rw [containsSub_trim_le hcc] at hqc; exact hqc
      simp [hqne, htc]
    unfold extractReviewBlockquote
    rw [if_neg (by intro hh; rw [List.isEmpty_iff.mp hh] at hmem; simp at hmem)]
    obtain ⟨x, rest2, hx⟩ : ∃ x rest2, (paragraphs.map trimStr).filter
        (fun t => !t.isEmpty && !containsSub t (str "Watched on")) = x :: rest2 := by
      cases hc : (paragraphs.map trimStr).filter
          (fun t => !t.isEmpty && !containsSub t (str "Watched on")) with
      | nil => rw [hc] at hmem; simp at hmem
      | cons x rest2 => exact ⟨x, rest2, rfl⟩
    rw [hx]
    cases rest2 with
    | nil => simp [joinSep, str]
    | cons y t2 => simp [joinSep, str]

/-- Claim C10 witness: a concrete description with one Watched-on
paragraph and one review paragraph. -/
theorem claim_C10_witness :
    extractReview [str "Watched on January 5", str " A fine film "] = none ∧
    extractReviewBlockquote [str "Watched on January 5", str " A fine film "] =
      joinSep (str "\n>\n")
        ((([str "Watched on January 5", str " A fine film "].map trimStr).filter
            (fun t => !t.isEmpty && !containsSub t (str "Watched on"))).map
          (fun p => str "> " ++ p)) ∧
    extractReviewBlockquote [str "Watched on January 5", str " A fine film "] ≠ [] :=
  claim_C10 [str "Watched on January 5", str " A fine film "]
    ⟨str "Watched on January 5", by decide⟩
    ⟨str " A fine film ", by decide⟩

/-- Claim C5 (amended): an item lacking the film title or year is not
skipped individually. With movie notes enabled, the first such item in
the sorted batch throws and aborts the whole sync: the notes of the
items before it are written (one write each), no later item is
processed, and the diary is not updated at all. -/
theorem claim_C5 (s : LetterboxdSettings) (vault : List (Str × Str)) (diary : Option Str)
    (items pre post : List RSSEntry) (bad : RSSEntry)
    (hs : s.createMovieNotes = true)
    (hsorted : sortItems s items = pre ++ bad :: post)
    (hpre : ∀ i ∈ pre, i.filmTitle ≠ none ∧ i.filmYear ≠ none)
    (hbad : bad.filmTitle = none ∨ bad.filmYear = none) :
    ∃ ws, syncLetterboxd s vault diary items = SyncOutcome.err ws ∧
      ws.length = pre.length := by
  have hbadnote : ∀ v, createOrUpdateMovieNote s v bad = none := by
    intro v
    rcases hbad with h | h
    · simp [createOrUpdateMovieNote, h]
    · cases hT : bad.filmTitle with
      | none => simp [createOrUpdateMovieNote, hT]
      | some t0 => simp [createOrUpdateMovieNote, hT, h]
  have key : ∀ (pr : List RSSEntry) (v : List (Str × Str)),
      (∀ i ∈ pr, i.filmTitle ≠ none ∧ i.filmYear ≠ none) →
      ∃ ws, processNotes s v (pr ++ bad :: post) = Except.error ws ∧
        ws.length = pr.length := by
    intro pr
    induction pr with
    | nil =>
      intro v _
      refine ⟨[], ?_, rfl⟩
      simp [processNotes, hbadnote v]
    | cons i pr2 ih =>
      intro v hpre2
      obtain ⟨t0, ht0⟩ := Option.ne_none_iff_exists'.mp (hpre2 i (by simp)).1
      obtain ⟨y0, hy0⟩ := Option.ne_none_iff_exists'.mp (hpre2 i (by simp)).2
      have hsome : ∃ pc link, createOrUpdateMovieNote s v i = some (pc, link) := by
        unfold createOrUpdateMovieNote
        rw [ht0, hy0]
        dsimp only
        split
        · exact ⟨_, _, rfl⟩
        · exact ⟨_, _, rfl⟩
      obtain ⟨pc, link, hco⟩ := hsome
      obtain ⟨ws, hws, hlen⟩ := ih (vaultSet v pc.1 pc.2) (fun z hz => hpre2 z (by simp [hz]))
      refine ⟨pc :: ws, ?_, by simp [hlen]⟩
      rw [show (i :: pr2) ++ bad :: post = i :: (pr2 ++ bad :: post) from rfl]
      simp only [processNotes, hco, hws]
  obtain ⟨ws, hws, hlen⟩ := key pre vault hpre
  refine ⟨ws, ?_, hlen⟩
  simp only [syncLetterboxd, hs, if_true, hsorted, hws]

/-- Claim C5 witness: with movie notes enabled, a concrete batch whose
second item lacks the film year aborts after writing exactly one
note. -/
theorem claim_C5_witness :
    ∃ ws, syncLetterboxd cfgNotes [] none [itemWatched, itemNoYear] = SyncOutcome.err ws ∧
      ws.length = [itemWatched].length :=
  claim_C5 cfgNotes [] none [itemWatched, itemNoYear] [itemWatched] [] itemNoYear
    (by decide) (by decide) (by decide) (by decide)

/-- Claim C5, as stated, is false: the batch watched/no-year/marked is
not processed to completion with the middle item skipped; instead the
sync aborts after one note write and the diary is never updated. -/
theorem claim_C5_counterexample :
    syncAborted
      (syncLetterboxd cfgNotes [] none [itemWatched, itemNoYear, itemMarked]) = true ∧
    (syncNoteWrites
      (syncLetterboxd cfgNotes [] none [itemWatched, itemNoYear, itemMarked])).length = 1 := by
  constructor
  · decide
  · decide

theorem dropWhile_idem {p : Char → Bool} {l : Str} :
    (l.dropWhile p).dropWhile p = l.dropWhile p := by
  induction l with
  | nil => rfl
  | cons c t ih =>
    by_cases hc : p c = true
    · rw [List.dropWhile_cons_of_pos hc]
      exact ih
    · rw [List.dropWhile_cons_of_neg (by simp [hc]),
        List.dropWhile_cons_of_neg (by simp [hc])]

theorem dropTrailingWs_decomp (m : Str) :
    m = dropTrailingWs m ++ (m.reverse.takeWhile isWs).reverse := by
  unfold dropTrailingWs
  rw [← List.reverse_append, List.takeWhile_append_dropWhile, List.reverse_reverse]

theorem dropTrailingWs_idem (m : Str) :
    dropTrailingWs (dropTrailingWs m) = dropTrailingWs m := by
  unfold dropTrailingWs
  rw [List.reverse_reverse, dropWhile_idem]

theorem dropWhile_head_false (p : Char → Bool) (l : Str) :
    l.dropWhile p = [] ∨ ∃ c t, l.dropWhile p = c :: t ∧ p c = false := by
  induction l with
  | nil => exact Or.inl rfl
  | cons c t ih =>
    by_cases hc : p c = true
    · rw [List.dropWhile_cons_of_pos hc]
      exact ih
    · rw [List.dropWhile_cons_of_neg (by simp [hc])]
      exact Or.inr ⟨c, t, rfl, by simpa using hc⟩

theorem trimStr_idem (s : Str) : trimStr (trimStr s) = trimStr s := by
  unfold trimStr
  rcases dropWhile_head_false isWs s with h | ⟨c, t, h, hc⟩
  · rw [h]
    rfl
  · rw [h]
    have hfix : (dropTrailingWs (c :: t)).dropWhile isWs = dropTrailingWs (c :: t) := by
      cases hd : dropTrailingWs (c :: t) with
      | nil => rfl
      | cons y ys =>
        have hy : y = c := by
          have hd2 := dropTrailingWs_decomp (c :: t)
          rw [hd] at hd2
          exact (List.cons.injEq _ _ _ _ |>.mp hd2.symm).1
        rw [List.dropWhile_cons_of_neg (by simp [hy, hc])]
    rw [hfix, dropTrailingWs_idem]

theorem mem_collectActivities_trimmed {ls : List Str} :
    ∀ x ∈ collectActivities ls, trimStr x = x := by
  induction ls with
  | nil => intro x hx; simp [collectActivities] at hx
  | cons l rest ih =>
    intro x hx
    simp only [collectActivities] at hx
    by_cases h1 : startsWithStr (trimStr l) (str "#") = true
    · rw [if_pos h1] at hx
      simp at hx
    · rw [if_neg h1] at hx
      by_cases h2 : startsWithStr (trimStr l) (str "-") = true
      · rw [if_pos h2] at hx
        rcases List.mem_cons.mp hx with h | h
        · subst h
          exact trimStr_idem l
        · exact ih x h
      · rw [if_neg h2] at hx
        exact ih x hx

theorem mem_activitiesOf_trimmed {sc : Str} :
    ∀ x ∈ activitiesOf sc, trimStr x = x := by
  intro x hx
  unfold activitiesOf at hx
  by_cases h : containsSub sc activityHeaderStr = true
  · rw [if_pos h] at hx
    rcases hsp : splitOnSub activityHeaderStr sc with _ | ⟨p0, _ | ⟨p1, rest⟩⟩ <;>
      rw [hsp] at hx
    · simp at hx
    · simp at hx
    · exact mem_collectActivities_trimmed x hx
  · rw [if_neg h] at hx
    simp at hx

/-- Claim C8: entity-note activity dedup. With the activity entries
parsed from the managed section of a note, merging an activity line
whose trimmed text already occurs leaves the list unchanged (so a list
with exactly one occurrence still has exactly one); otherwise the new
line is appended after the existing entries. The parsed entries are
their own trimmed text, and the rebuilt section embeds exactly the
merged list. -/
theorem claim_C8 (content a sc : Str) (hsc : sectionContentOf content = some sc) :
    (trimStr a ∈ activitiesOf sc → mergedActivities (activitiesOf sc) a = activitiesOf sc) ∧
    (trimStr a ∉ activitiesOf sc →
      mergedActivities (activitiesOf sc) a = activitiesOf sc ++ [a]) ∧
    (∀ x ∈ activitiesOf sc, trimStr x = x) ∧
    (List.count (trimStr a) (activitiesOf sc) = 1 →
      List.count (trimStr a) (mergedActivities (activitiesOf sc) a) = 1) ∧
    (∀ rb b sec aft, rebuildParts content rb a = some (b, sec, aft) →
      joinNl (mergedActivities (activitiesOf sc) a) ∈ sec) := by
  have hany : (activitiesOf sc).any (fun x => decide (x = trimStr a)) = true ↔
      trimStr a ∈ activitiesOf sc := by
    simp [List.any_eq_true]
  refine ⟨?_, ?_, mem_activitiesOf_trimmed, ?_, ?_⟩
  · intro h
    unfold mergedActivities
    rw [if_pos (hany.mpr h)]
  · intro h
    unfold mergedActivities
    rw [if_neg (fun hc => h (hany.mp hc))]
  · intro hcount
    by_cases h : trimStr a ∈ activitiesOf sc
    · unfold mergedActivities
      rw [if_pos (hany.mpr h)]
      exact hcount
    · exact absurd hcount (by rw [List.count_eq_zero_of_not_mem h]; omega)
  · intro rb b sec aft hp
    obtain ⟨b0, sl, a0, hloc⟩ : ∃ b0 sl a0, locateSection content = some (b0, sl, a0) := by
      unfold sectionContentOf at hsc
      cases hl : locateSection content with
      | none => rw [hl] at hsc; simp at hsc
      | some t =>
        obtain ⟨b0, sl, a0⟩ := t
        exact ⟨b0, sl, a0, rfl⟩
    have hscv : sc = joinNl sl := by
      unfold sectionContentOf at hsc
      rw [hloc] at hsc
      simpa using hsc.symm
    unfold rebuildParts at hp
    rw [hloc] at hp
    simp only [Option.some_inj] at hp
    injection hp with hb hp2
    injection hp2 with hsec haft
    rw [← hsec, hscv]
    simp

/-- Claim C8 witness: a concrete note whose Activity subsection already
contains the line - X, merged with - X again. -/
theorem claim_C8_witness :
    mergedActivities
        (activitiesOf (str "\n### Activity\n\n- X")) (str "- X") =
      activitiesOf (str "\n### Activity\n\n- X") ∧
    List.count (trimStr (str "- X"))
        (mergedActivities (activitiesOf (str "\n### Activity\n\n- X")) (str "- X")) = 1 :=
  ⟨(claim_C8 (str "## Letterboxd\n\n### Activity\n\n- X") (str "- X")
      (str "\n### Activity\n\n- X") (by decide)).1 (by decide),
   (claim_C8 (str "## Letterboxd\n\n### Activity\n\n- X") (str "- X")
      (str "\n### Activity\n\n- X") (by decide)).2.2.2.1 (by decide)⟩

theorem splitOnSubF_ne_nil (sep : Str) (f : Nat) (s : Str) : splitOnSubF sep f s ≠ [] := by
  induction f generalizing s with
  | zero => simp [splitOnSubF]
  | succ f ih =>
    cases s with
    | nil => simp [splitOnSubF]
    | cons c cs =>
      simp only [splitOnSubF]
      split
      · simp
      · cases h : splitOnSubF sep f cs <;> simp

theorem joinSep_splitOnSubF (sep : Str) (f : Nat) (s : Str) :
    joinSep sep (splitOnSubF sep f s) = s := by
  induction f generalizing s with
  | zero => simp [splitOnSubF, joinSep]
  | succ f ih =>
    cases s with
    | nil => simp [splitOnSubF, joinSep]
    | cons c cs =>
      simp only [splitOnSubF]
      split
      · rename_i hcond
        simp only [Bool.and_eq_true, Bool.not_eq_true'] at hcond
        obtain ⟨w, hw⟩ := sw_sound hcond.1
        obtain ⟨r0, rt, hr⟩ : ∃ r0 rt,
            splitOnSubF sep f (List.drop sep.length (c :: cs)) = r0 :: rt := by
          cases hrr : splitOnSubF sep f (List.drop sep.length (c :: cs)) with
          | nil => exact absurd hrr (splitOnSubF_ne_nil sep f _)
          | cons r0 rt => exact ⟨r0, rt, rfl⟩
        rw [hr]
        have hj := ih (List.drop sep.length (c :: cs))
        rw [hr] at hj
        have : joinSep sep ([] :: r0 :: rt) = sep ++ joinSep sep (r0 :: rt) := by
          simp [joinSep]
        rw [this, hj, hw, List.drop_left]
      · obtain ⟨h, t, hsp⟩ : ∃ h t, splitOnSubF sep f cs = h :: t := by
          cases hrr : splitOnSubF sep f cs with
          | nil => exact absurd hrr (splitOnSubF_ne_nil sep f cs)
          | cons h t => exact ⟨h, t, rfl⟩
        rw [hsp]
        have hj := ih cs
        rw [hsp] at hj
        cases t with
        | nil =>
          simp only [joinSep] at hj ⊢
          rw [hj]
        | cons t0 tt =>
          have h1 : joinSep sep ((c :: h) :: t0 :: tt) = (c :: h) ++ sep ++ joinSep sep (t0 :: tt) := by
            simp [joinSep]
          have h2 : joinSep sep (h :: t0 :: tt) = h ++ sep ++ joinSep sep (t0 :: tt) := by
            simp [joinSep]
          rw [h2] at hj
          rw [h1, ← hj]
          simp

theorem joinSep_splitOnSub (sep s : Str) : joinSep sep (splitOnSub sep s) = s :=
  joinSep_splitOnSubF sep _ s

theorem splitOnSubF_fuel (sep : Str) (f1 f2 : Nat) (s : Str)
    (h1 : s.length ≤ f1) (h2 : s.length ≤ f2) :
    splitOnSubF sep f1 s = splitOnSubF sep f2 s := by
  induction f1 generalizing s f2 with
  | zero =>
    have hs : s = [] := List.length_eq_zero.mp (Nat.le_zero.mp h1)
    subst hs
    cases f2 <;> simp [splitOnSubF]
  | succ f1 ih =>
    cases s with
    | nil => cases f2 <;> simp [splitOnSubF]
    | cons c cs =>
      cases f2 with
      | zero => simp at h2
      | succ g =>
        simp only [splitOnSubF]
        split
        · rename_i hcond
          simp only [Bool.and_eq_true, Bool.not_eq_true'] at hcond
          have hsep : 1 ≤ sep.length := by
            cases sep with
            | nil => simp at hcond
            | cons a b => simp
          have hlen : (List.drop sep.length (c :: cs)).length ≤ f1 := by
            rw [List.length_drop]
            simp only [List.length_cons] at h1 ⊢
            omega
          have hlen2 : (List.drop sep.length (c :: cs)).length ≤ g := by
            rw [List.length_drop]
            simp only [List.length_cons] at h2 ⊢
            omega
          rw [ih g _ hlen hlen2]
        · have hlen : cs.length ≤ f1 := by
            simp only [List.length_cons] at h1
            omega
          have hlen2 : cs.length ≤ g := by
            simp only [List.length_cons] at h2
            omega
          rw [ih g cs hlen hlen2]

theorem splitOnSubF_succ (sep : Str) (f : Nat) (c : Char) (cs : Str) :
    splitOnSubF sep (f + 1) (c :: cs) =
      if startsWithStr (c :: cs) sep && !sep.isEmpty then
        [] :: splitOnSubF sep f (List.drop sep.length (c :: cs))
      else
        match splitOnSubF sep f cs with
        | [] => [[c]]
        | h :: t => (c :: h) :: t := rfl

theorem splitOnSub_eq_F (sep s : Str) : splitOnSub sep s = splitOnSubF sep (s.length + 1) s :=
  rfl

theorem splitOnSub_of_sw {sep s : Str} (hne : sep ≠ [])
    (hsw : startsWithStr s sep = true) :
    splitOnSub sep s = [] :: splitOnSub sep (s.drop sep.length) := by
  have hsne : s ≠ [] := by
    intro hs
    subst hs
    have := sw_nil_elim hsw
    exact hne this
  obtain ⟨c, cs, hs⟩ : ∃ c cs, s = c :: cs := by
    cases s with
    | nil => exact absurd rfl hsne
    | cons c cs => exact ⟨c, cs, rfl⟩
  subst hs
  have hsep1 : 1 ≤ sep.length := by
    cases sep with
    | nil => exact absurd rfl hne
    | cons a b => simp
  rw [show splitOnSub sep (c :: cs) = splitOnSubF sep (cs.length + 1 + 1) (c :: cs) from rfl]
  rw [splitOnSubF_succ]
  rw [if_pos (by simp [hsw, hne])]
  congr 1
  rw [splitOnSub_eq_F]
  apply splitOnSubF_fuel
  · rw [List.length_drop]
    simp only [List.length_cons]
    omega
  · simp

theorem splitOnSub_cons_neg {sep : Str} {c : Char} {cs : Str}
    (h : startsWithStr (c :: cs) sep = false) :
    splitOnSub sep (c :: cs) =
      (match splitOnSub sep cs with
       | [] => [[c]]
       | h :: t => (c :: h) :: t) := by
  rw [show splitOnSub sep (c :: cs) = splitOnSubF sep (cs.length + 1 + 1) (c :: cs) from rfl]
  rw [splitOnSubF_succ]
  rw [if_neg (by simp [h])]
  rfl

theorem splitOnSub_key {ch : Char} {sep2 k v : Str} (hk : ch ∉ k) :
    splitOnSub (ch :: sep2) (k ++ (ch :: sep2) ++ v) =
      k :: splitOnSub (ch :: sep2) v := by
  induction k with
  | nil =>
    simp only [List.nil_append]
    rw [splitOnSub_of_sw (by simp) (sw_self_append _ _)]
    congr 1
    congr 1
    rw [List.drop_left]
  | cons d k2 ih =>
    have hd : ¬d = ch := fun hh => hk (by simp [hh])
    rw [show (d :: k2) ++ (ch :: sep2) ++ v = d :: (k2 ++ (ch :: sep2) ++ v) by simp]
    rw [splitOnSub_cons_neg (by simp [startsWithStr, hd])]
    rw [ih (fun hh => hk (by simp [hh]))]

theorem splitFirstAt_key {k v : Str} (hk : (':' : Char) ∉ k) :
    splitFirstAt (str ": ") (k ++ str ": " ++ v) = (k, v) := by
  unfold splitFirstAt
  rw [show str ": " = (':' :: [' ']) from by decide]
  rw [splitOnSub_key hk]
  obtain ⟨y, t, hyt⟩ : ∃ y t, splitOnSub (':' :: [' ']) v = y :: t := by
    cases hc : splitOnSub (':' :: [' ']) v with
    | nil => exact absurd hc (splitOnSubF_ne_nil _ _ _)
    | cons y t => exact ⟨y, t, rfl⟩
  rw [hyt]
  dsimp only
  have hj := joinSep_splitOnSub (':' :: [' ']) v
  rw [hyt] at hj
  rw [hj]

theorem sw_head_ne {c d : Char} {w p : Str} (h : ¬c = d) :
    startsWithStr (c :: w) (d :: p) = false := by
  simp [startsWithStr, h]

theorem scalar_line_not_item {k v : Str} (hs : (' ' : Char) ∉ k) :
    fmIsItemLine (k ++ str ": " ++ v) = false := by
  unfold fmIsItemLine
  rw [show str "  - " = ' ' :: [' ', '-', ' '] from by decide]
  cases k with
  | nil =>
    rw [show ([] : Str) ++ str ": " ++ v = ':' :: (' ' :: v) by
      rw [show str ": " = [':', ' '] from by decide]; simp]
    exact sw_head_ne (by decide)
  | cons c k2 =>
    rw [show ((c :: k2) ++ str ": " ++ v) = c :: (k2 ++ str ": " ++ v) by simp]
    exact sw_head_ne (fun hh => hs (by simp [hh]))

theorem arr_line_not_item {k : Str} (hs : (' ' : Char) ∉ k) :
    fmIsItemLine (k ++ [':']) = false := by
  unfold fmIsItemLine
  rw [show str "  - " = ' ' :: [' ', '-', ' '] from by decide]
  cases k with
  | nil =>
    rw [show ([] : Str) ++ [':'] = ':' :: [] by simp]
    exact sw_head_ne (by decide)
  | cons c k2 =>
    rw [show ((c :: k2) ++ [':']) = c :: (k2 ++ [':']) by simp]
    exact sw_head_ne (fun hh => hs (by simp [hh]))

theorem scalar_line_is_scalar (k v : Str) :
    fmIsScalarLine (k ++ str ": " ++ v) = true := by
  unfold fmIsScalarLine
  rw [List.append_assoc]
  exact containsSub_mid _ _ _

theorem arr_line_not_scalar {k : Str} (hs : (' ' : Char) ∉ k) :
    fmIsScalarLine (k ++ [':']) = false := by
  unfold fmIsScalarLine
  cases hc : containsSub (k ++ [':']) (str ": ") with
  | false => rfl
  | true =>
    exfalso
    have hmem := char_mem_of_containsSub hc ' ' (by decide)
    rcases List.mem_append.mp hmem with h | h
    · exact hs h
    · simp at h

theorem arr_line_is_arrstart (k : Str) : fmIsArrayStart (k ++ [':']) = true := by
  unfold fmIsArrayStart endsWithStr
  rw [show str ":" = [':'] from by decide]
  rw [List.reverse_append]
  simp [startsWithStr]

theorem item_line_is_item (v : Str) : fmIsItemLine (str "  - " ++ v) = true :=
  sw_self_append _ _

theorem item_line_drop (v : Str) : (str "  - " ++ v).drop 4 = v := by
  rw [show (4 : Nat) = (str "  - ").length from rfl]
  exact List.drop_left _ _

theorem arr_line_dropLast (k : Str) : (k ++ [':']).dropLast = k :=
  List.dropLast_concat ..

theorem scalar_line_ne_dashes (k v : Str) : (k ++ str ": " ++ v) ≠ str "---" := by
  intro h
  have hmem : (':' : Char) ∈ k ++ str ": " ++ v := by
    rw [List.append_assoc]
    exact List.mem_append_right _ (List.mem_append_left _ (by decide))
  rw [h] at hmem
  exact absurd hmem (by decide)

theorem arr_line_ne_dashes (k : Str) : (k ++ [':']) ≠ str "---" := by
  intro h
  have hmem : (':' : Char) ∈ k ++ [':'] := List.mem_append_right _ (by simp)
  rw [h] at hmem
  exact absurd hmem (by decide)

theorem item_line_ne_dashes (v : Str) : (str "  - " ++ v) ≠ str "---" := by
  intro h
  have hmem : (' ' : Char) ∈ str "  - " ++ v := List.mem_append_left _ (by decide)
  rw [h] at hmem
  exact absurd hmem (by decide)

theorem splitNl_items {vs : List Str} (hvs : ∀ v ∈ vs, ('\n' : Char) ∉ v) :
    ∀ T, splitNl ((vs.map (fun v => str "  - " ++ v ++ ['\n'])).flatten ++ T) =
      vs.map (fun v => str "  - " ++ v) ++ splitNl T := by
  induction vs with
  | nil => intro T; simp
  | cons v vs2 ih =>
    intro T
    simp only [List.map_cons, List.flatten_cons]
    rw [show str "  - " ++ v ++ ['\n'] ++
        (List.map (fun v => str "  - " ++ v ++ ['\n']) vs2).flatten ++ T =
      (str "  - " ++ v) ++ '\n' ::
        ((List.map (fun v => str "  - " ++ v ++ ['\n']) vs2).flatten ++ T) by simp]
    rw [splitNl_append_nl]
    rw [splitNl_eq_single (by
      intro hmem
      rcases List.mem_append.mp hmem with h | h
      · exact absurd h (by decide)
      · exact hvs v (by simp) h)]
    rw [ih (fun z hz => hvs z (by simp [hz]))]
    simp

theorem splitNl_entries {m : List (Str × FmVal)} (hm : fmMappingOk m) :
    ∀ T, splitNl ((m.map fmEntryLines).flatten ++ T) =
      (m.map fmEntryLineView).flatten ++ splitNl T := by
  induction m with
  | nil => intro T; simp
  | cons e m2 ih =>
    intro T
    have hk : ('\n' : Char) ∉ e.1 := (hm e (by simp)).1.1
    simp only [List.map_cons, List.flatten_cons]
    obtain ⟨k, val⟩ := e
    cases val with
    | scalar v =>
      have hv : ('\n' : Char) ∉ v := (hm (k, FmVal.scalar v) (by simp)).2
      rw [show fmEntryLines (k, FmVal.scalar v) ++
          (List.map fmEntryLines m2).flatten ++ T =
        (k ++ str ": " ++ v) ++ '\n' :: ((List.map fmEntryLines m2).flatten ++ T) by
          simp [fmEntryLines]]
      rw [splitNl_append_nl]
      rw [splitNl_eq_single (by
        intro hmem
        rcases List.mem_append.mp hmem with h | h
        · rcases List.mem_append.mp h with h2 | h2
          · exact hk h2
          · exact absurd h2 (by decide)
        · exact hv h)]
      rw [ih (fun z hz => hm z (by simp [hz]))]
      simp [fmEntryLineView]
    | arr vs =>
      have hvs : ∀ v ∈ vs, ('\n' : Char) ∉ v := (hm (k, FmVal.arr vs) (by simp)).2
      rw [show fmEntryLines (k, FmVal.arr vs) ++
          (List.map fmEntryLines m2).flatten ++ T =
        (k ++ [':']) ++ '\n' ::
          ((List.map (fun v => str "  - " ++ v ++ ['\n']) vs).flatten ++
            ((List.map fmEntryLines m2).flatten ++ T)) by
          simp only [fmEntryLines]
          rw [show str ":\n" = [':'] ++ ['\n'] from by decide]
          simp]
      rw [splitNl_append_nl]
      rw [splitNl_eq_single (by
        intro hmem
        rcases List.mem_append.mp hmem with h | h
        · exact hk h
        · simp at h)]
      rw [splitNl_items hvs]
      rw [ih (fun z hz => hm z (by simp [hz]))]
      simp [fmEntryLineView]

theorem splitNl_obj {m : List (Str × FmVal)} (hm : fmMappingOk m) :
    splitNl (objToFrontmatter m) =
      str "---" :: ((m.map fmEntryLineView).flatten ++ [str "---", []]) := by
  unfold objToFrontmatter
  rw [show str "---\n" ++ (m.map fmEntryLines).flatten ++ str "---\n" =
    str "---" ++ '\n' :: ((m.map fmEntryLines).flatten ++ str "---\n") by
      rw [show str "---\n" = str "---" ++ ['\n'] from by decide]
      simp]
  rw [splitNl_append_nl]
  rw [@splitNl_eq_single (str "---") (by decide)]
  rw [splitNl_entries hm]
  rw [show splitNl (str "---\n") = [str "---", []] from by decide]
  rfl

theorem fmParseGo_flush (pd : Str × List Str) (rest : List Str)
    (h : rest = [] ∨ ∃ L r, rest = L :: r ∧ fmIsItemLine L = false) :
    fmParseGo (some pd) rest = fmFlush (some pd) ++ fmParseGo none rest := by
  rcases h with h | ⟨L, r, hr, hL⟩
  · subst h
    simp [fmParseGo, fmFlush]
  · subst hr
    by_cases h2 : fmIsScalarLine L = true
    · simp [fmParseGo, hL, h2, fmFlush]
    · by_cases h3 : fmIsArrayStart L = true
      · simp [fmParseGo, hL, h2, h3, fmFlush]
      · simp [fmParseGo, hL, h2, h3, fmFlush]

theorem fmParseGo_items (k : Str) : ∀ (vs acc rest : List Str),
    fmParseGo (some (k, acc)) ((vs.map (fun v => str "  - " ++ v)) ++ rest) =
      fmParseGo (some (k, acc ++ vs)) rest := by
  intro vs
  induction vs with
  | nil => intro acc rest; simp
  | cons v vs2 ih =>
    intro acc rest
    simp only [List.map_cons, List.cons_append]
    rw [show fmParseGo (some (k, acc))
        ((str "  - " ++ v) :: (List.map (fun v => str "  - " ++ v) vs2 ++ rest)) =
      fmParseGo (some (k, acc ++ [(str "  - " ++ v).drop 4]))
        (List.map (fun v => str "  - " ++ v) vs2 ++ rest) from by
        simp [fmParseGo, item_line_is_item v]]
    rw [item_line_drop v, ih]
    simp

theorem views_flush_cond {m2 : List (Str × FmVal)} (hm2 : fmMappingOk m2) :
    (m2.map fmEntryLineView).flatten = [] ∨
      ∃ L r, (m2.map fmEntryLineView).flatten = L :: r ∧ fmIsItemLine L = false := by
  cases m2 with
  | nil => exact Or.inl (by simp)
  | cons e m3 =>
    right
    have hsp : (' ' : Char) ∉ e.1 := (hm2 e (by simp)).1.2.2
    obtain ⟨k, val⟩ := e
    cases val with
    | scalar v =>
      exact ⟨k ++ str ": " ++ v, (List.map fmEntryLineView m3).flatten,
        by simp [fmEntryLineView], scalar_line_not_item hsp⟩
    | arr vs =>
      exact ⟨k ++ [':'],
        List.map (fun v => str "  - " ++ v) vs ++ (List.map fmEntryLineView m3).flatten,
        by simp [fmEntryLineView], arr_line_not_item hsp⟩

theorem fmParseGo_views {m : List (Str × FmVal)} (hm : fmMappingOk m) :
    fmParseGo none ((m.map fmEntryLineView).flatten) = m := by
  induction m with
  | nil => simp [fmParseGo, fmFlush]
  | cons e m2 ih =>
    have hkey : fmKeyOk e.1 := (hm e (by simp)).1
    have hm2 : fmMappingOk m2 := fun z hz => hm z (by simp [hz])
    obtain ⟨k, val⟩ := e
    have hkey' : fmKeyOk k := hkey
    cases val with
    | scalar v =>
      simp only [List.map_cons, List.flatten_cons, fmEntryLineView]
      rw [show ([k ++ str ": " ++ v] : List Str) ++ (List.map fmEntryLineView m2).flatten =
        (k ++ str ": " ++ v) :: (List.map fmEntryLineView m2).flatten by simp]
      rw [show fmParseGo none ((k ++ str ": " ++ v) :: (List.map fmEntryLineView m2).flatten) =
        fmFlush none ++ ((splitFirstAt (str ": ") (k ++ str ": " ++ v)).1,
          FmVal.scalar (splitFirstAt (str ": ") (k ++ str ": " ++ v)).2) ::
          fmParseGo none ((List.map fmEntryLineView m2).flatten) from by
        simp only [fmParseGo, @scalar_line_not_item k v hkey'.2.2, scalar_line_is_scalar k v]
        simp]
      rw [splitFirstAt_key hkey'.2.1]
      simp [fmFlush, ih hm2]
    | arr vs =>
      simp only [List.map_cons, List.flatten_cons, fmEntryLineView]
      rw [show ((k ++ [':']) :: List.map (fun v => str "  - " ++ v) vs) ++
          (List.map fmEntryLineView m2).flatten =
        (k ++ [':']) :: (List.map (fun v => str "  - " ++ v) vs ++
          (List.map fmEntryLineView m2).flatten) by simp]
      rw [show fmParseGo none ((k ++ [':']) :: (List.map (fun v => str "  - " ++ v) vs ++
          (List.map fmEntryLineView m2).flatten)) =
        fmFlush none ++ fmParseGo (some ((k ++ [':']).dropLast, []))
          (List.map (fun v => str "  - " ++ v) vs ++
            (List.map fmEntryLineView m2).flatten) from by
        simp only [fmParseGo, @arr_line_not_item k hkey'.2.2, @arr_line_not_scalar k hkey'.2.2,
          arr_line_is_arrstart k]
        simp]
      rw [arr_line_dropLast, fmParseGo_items]
      rw [fmParseGo_flush _ _ (views_flush_cond hm2)]
      simp [fmFlush, ih hm2]

/-- Claim C7 (amended): the frontmatter round trip parse after
serialize recovers the mapping for every mapping whose keys contain no
newline, colon or space and whose scalar values and array elements
contain no newline (all keys the plugin writes qualify). A scalar value
containing a newline breaks the round trip (see the counterexample). -/
theorem claim_C7 (m : List (Str × FmVal)) (hm : fmMappingOk m) :
    parseFrontmatter (objToFrontmatter m) = some m := by
  have hviews : ∀ l ∈ (m.map fmEntryLineView).flatten,
      (fun l => decide (l = str "---")) l = false := by
    intro l hl
    simp only [decide_eq_false_iff_not]
    obtain ⟨vw, hvw, hlvw⟩ := List.mem_flatten.mp hl
    obtain ⟨e, hem, hev⟩ := List.mem_map.mp hvw
    obtain ⟨k, val⟩ := e
    cases val with
    | scalar v =>
      rw [← hev] at hlvw
      simp only [fmEntryLineView, List.mem_singleton] at hlvw
      rw [hlvw]
      exact scalar_line_ne_dashes k v
    | arr vs =>
      rw [← hev] at hlvw
      simp only [fmEntryLineView] at hlvw
      rcases List.mem_cons.mp hlvw with h | h
      · rw [h]; exact arr_line_ne_dashes k
      · obtain ⟨v, hv, hveq⟩ := List.mem_map.mp h
        rw [← hveq]; exact item_line_ne_dashes v
  have hfi : firstIdxP (fun l => decide (l = str "---"))
      ((m.map fmEntryLineView).flatten ++ [str "---", []]) =
      some ((m.map fmEntryLineView).flatten).length := by
    rw [firstIdxP_append_not hviews]
    rw [firstIdxP_cons_true (by simp)]
    simp
  unfold parseFrontmatter
  rw [splitNl_obj hm]
  simp only [hfi, if_pos rfl]
  rw [List.take_left]
  rw [fmParseGo_views hm]
  simp

/-- Claim C7 witness: a concrete mapping with a scalar and a string
array round trips. -/
theorem claim_C7_witness :
    parseFrontmatter (objToFrontmatter
        [(str "title", FmVal.scalar (str "T")), (str "tags", FmVal.arr [str "a", str "b"])]) =
      some [(str "title", FmVal.scalar (str "T")), (str "tags", FmVal.arr [str "a", str "b"])] :=
  claim_C7 [(str "title", FmVal.scalar (str "T")), (str "tags", FmVal.arr [str "a", str "b"])]
    (by
      intro e he
      rcases List.mem_cons.mp he with h | h
      · subst h
        refine ⟨⟨by decide, by decide, by decide⟩, ?_⟩
        show ('\n' : Char) ∉ str "T"
        decide
      · rcases List.mem_cons.mp h with h2 | h2
        · subst h2
          refine ⟨⟨by decide, by decide, by decide⟩, ?_⟩
          show ∀ v ∈ [str "a", str "b"], ('\n' : Char) ∉ v
          decide
        · simp at h2)

/-- Claim C7, as stated, is false: a mapping whose scalar value
contains a newline serialises to lines the parse cannot recover. -/
theorem claim_C7_counterexample :
    parseFrontmatter (objToFrontmatter fmBadMapping) ≠ some fmBadMapping := by
  decide

theorem noTripleNl_tail {x : Char} {t : Str} (h : noTripleNl (x :: t) = true) :
    noTripleNl t = true := by
  cases t with
  | nil => rfl
  | cons y t2 =>
    cases t2 with
    | nil => rfl
    | cons z t3 =>
      simp only [noTripleNl, Bool.and_eq_true] at h
      exact h.2

theorem noTripleNl_drop {u v : Str} (h : noTripleNl (u ++ v) = true) :
    noTripleNl v = true := by
  induction u with
  | nil => simpa using h
  | cons c u2 ih => exact ih (noTripleNl_tail h)

theorem noTripleNl_three (xs : Str) :
    noTripleNl ('\n' :: '\n' :: '\n' :: xs) = false := by
  simp [noTripleNl]

theorem collapseGo_id {s : Str} : ∀ {n : Nat}, n ≤ 2 →
    noTripleNl (List.replicate n '\n' ++ s) = true →
    collapseGo s n = List.replicate n '\n' ++ s := by
  induction s with
  | nil =>
    intro n hn _
    simp only [collapseGo]
    rw [Nat.min_eq_left hn]
    simp
  | cons c rest ih =>
    intro n hn h
    by_cases hc : c = '\n'
    · subst hc
      have hrep : List.replicate n '\n' ++ '\n' :: rest =
          List.replicate (n + 1) '\n' ++ rest := by
        rw [List.replicate_succ']
        simp
      have hn1 : n + 1 ≤ 2 := by
        rcases Nat.lt_or_ge n 2 with h2 | h2
        · omega
        · exfalso
          have hn2 : n = 2 := by omega
          subst hn2
          rw [hrep] at h
          rw [show List.replicate (2 + 1) '\n' ++ rest =
            '\n' :: '\n' :: '\n' :: rest by simp [List.replicate]] at h
          rw [noTripleNl_three] at h
          exact Bool.false_ne_true h
      rw [show collapseGo ('\n' :: rest) n = collapseGo rest (n + 1) from rfl]
      rw [ih hn1 (by rw [← hrep]; exact h), hrep]
    · simp only [collapseGo, if_neg hc]
      rw [Nat.min_eq_left hn]
      have hrest : noTripleNl rest = true := by
        have h1 : noTripleNl (c :: rest) = true := noTripleNl_drop h
        exact noTripleNl_tail h1
      rw [ih (Nat.zero_le 2) (by simpa using hrest)]
      simp

theorem collapseNl_id {s : Str} (h : noTripleNl s = true) : collapseNl s = s := by
  unfold collapseNl
  rw [collapseGo_id (Nat.zero_le 2) (by simpa using h)]
  simp

theorem flatten_splitNl_id {L : List Str} (h : ∀ x ∈ L, ('\n' : Char) ∉ x) :
    (L.map splitNl).flatten = L := by
  induction L with
  | nil => simp
  | cons x t ih =>
    simp only [List.map_cons, List.flatten_cons]
    rw [splitNl_eq_single (h x (by simp)), ih (fun z hz => h z (by simp [hz]))]
    simp

theorem firstIdxP_some_spec {p : Str → Bool} {ls : List Str} {n : Nat}
    (h : firstIdxP p ls = some n) :
    (∀ l ∈ ls.take n, p l = false) ∧ ∃ x t, ls.drop n = x :: t ∧ p x = true := by
  induction ls generalizing n with
  | nil => simp [firstIdxP] at h
  | cons l t ih =>
    by_cases hl : p l = true
    · rw [firstIdxP_cons_true hl] at h
      have hn : n = 0 := by simpa using h.symm
      subst hn
      exact ⟨by simp, l, t, rfl, hl⟩
    · simp only [firstIdxP, hl] at h
      rw [if_neg (by simp)] at h
      obtain ⟨m, hm, hmn⟩ : ∃ m, firstIdxP p t = some m ∧ n = m + 1 := by
        cases hf : firstIdxP p t with
        | none => rw [hf] at h; simp at h
        | some m =>
          rw [hf] at h
          simp only [Option.map_some'] at h
          exact ⟨m, rfl, by simpa using h.symm⟩
      subst hmn
      obtain ⟨ht, x, t2, hdrop, hx⟩ := ih hm
      refine ⟨?_, x, t2, by simpa using hdrop, hx⟩
      intro z hz
      simp only [List.take_succ_cons] at hz
      rcases List.mem_cons.mp hz with h1 | h1
      · subst h1; simpa using hl
      · exact ht z h1

theorem textOutside_splice {b0 st a0 : List Str}
    (hbnl : ∀ l ∈ b0, ('\n' : Char) ∉ l)
    (hanl : ∀ l ∈ a0, ('\n' : Char) ∉ l)
    (hbmh : ∀ l ∈ b0, isMainHeaderLine l = false)
    (hst : ∀ x ∈ st, ∀ l ∈ splitNl x, isSectionBoundary l = false)
    (haft : a0 = [] ∨ ∃ x t, a0 = x :: t ∧ isSectionBoundary x = true)
    (hnt : noTripleNl (joinNl (b0 ++ mainHeaderStr :: st ++ a0)) = true) :
    textOutside (collapseNl (joinNl (b0 ++ mainHeaderStr :: st ++ a0))) =
      some (joinNl b0, joinNl a0) := by
  rw [collapseNl_id hnt]
  have hne : b0 ++ mainHeaderStr :: st ++ a0 ≠ [] := by simp
  have hlines : splitNl (joinNl (b0 ++ mainHeaderStr :: st ++ a0)) =
      b0 ++ mainHeaderStr :: ((st.map splitNl).flatten ++ a0) := by
    rw [splitNl_joinNl_flatten hne]
    simp only [List.map_append, List.flatten_append, List.map_cons, List.flatten_cons]
    rw [flatten_splitNl_id hbnl, flatten_splitNl_id hanl]
    rw [show splitNl mainHeaderStr = [mainHeaderStr] from by decide]
    simp
  have hidx' : firstIdxP isMainHeaderLine
      (b0 ++ mainHeaderStr :: ((st.map splitNl).flatten ++ a0)) = some b0.length := by
    rw [firstIdxP_append_not hbmh, firstIdxP_cons_true (by decide)]
    simp
  have hdrop1 : (b0 ++ mainHeaderStr :: ((st.map splitNl).flatten ++ a0)).drop
      (b0.length + 1) = (st.map splitNl).flatten ++ a0 := by
    rw [show b0 ++ mainHeaderStr :: ((st.map splitNl).flatten ++ a0) =
      (b0 ++ [mainHeaderStr]) ++ ((st.map splitNl).flatten ++ a0) by simp]
    rw [show b0.length + 1 = (b0 ++ [mainHeaderStr]).length by simp]
    exact List.drop_left _ _
  have htake1 : (b0 ++ mainHeaderStr :: ((st.map splitNl).flatten ++ a0)).take
      b0.length = b0 := List.take_left _ _
  have htail : ∀ l ∈ (st.map splitNl).flatten, isSectionBoundary l = false := by
    intro l hl
    obtain ⟨w, hw, hlw⟩ := List.mem_flatten.mp hl
    obtain ⟨x, hx, hxw⟩ := List.mem_map.mp hw
    exact hst x hx l (by rw [hxw]; exact hlw)
  have hlocOut : locateSection (joinNl (b0 ++ mainHeaderStr :: st ++ a0)) =
      some (b0, ((st.map splitNl).flatten ++ a0).take
        (match firstIdxP isSectionBoundary ((st.map splitNl).flatten ++ a0) with
         | none => ((st.map splitNl).flatten ++ a0).length
         | some j => j), a0) := by
    rcases haft with ha | ⟨x, t, hxa, hbx⟩
    · subst ha
      have hbd : firstIdxP isSectionBoundary
          ((st.map splitNl).flatten ++ ([] : List Str)) = none := by
        rw [firstIdxP_append_not htail]
        rfl
      unfold locateSection
      simp only [hlines, hidx', hdrop1, hbd]
      have hdropAll : (b0 ++ mainHeaderStr :: ((st.map splitNl).flatten ++ ([] : List Str))).drop
          (b0.length + 1 + ((st.map splitNl).flatten ++ ([] : List Str)).length) = [] := by
        apply List.drop_eq_nil_of_le
        simp
        omega
      rw [htake1, hdropAll]
    · have hbd : firstIdxP isSectionBoundary ((st.map splitNl).flatten ++ a0) =
          some ((st.map splitNl).flatten).length := by
        rw [firstIdxP_append_not htail, hxa, firstIdxP_cons_true hbx]
        simp
      unfold locateSection
      simp only [hlines, hidx', hdrop1, hbd]
      have hdropA : (b0 ++ mainHeaderStr :: ((st.map splitNl).flatten ++ a0)).drop
          (b0.length + 1 + ((st.map splitNl).flatten).length) = a0 := by
        rw [show b0 ++ mainHeaderStr :: ((st.map splitNl).flatten ++ a0) =
          ((b0 ++ [mainHeaderStr]) ++ (st.map splitNl).flatten) ++ a0 by simp]
        rw [show b0.length + 1 + ((st.map splitNl).flatten).length =
          ((b0 ++ [mainHeaderStr]) ++ (st.map splitNl).flatten).length by simp; omega]
        exact List.drop_left _ _
      rw [htake1, hdropA]
  unfold textOutside
  rw [hlocOut]
  simp

/-- Claim C3 (amended): section isolation up to the final newline
normalisation. Whenever the spliced document has no newline run of
length three or more (so the normalisation pass is the identity) and no
line of the rebuilt section after its heading matches the boundary
pattern, the text strictly before the managed heading and the text
strictly after the section's end boundary are byte-identical in the
merge's output to what they were in the input. In general the final
normalisation can collapse blank-line runs outside the managed section,
breaking byte-identity (see the counterexample). -/
theorem claim_C3 (content reviewBlock activityLine : Str) (b sec aft : List Str)
    (hp : rebuildParts content reviewBlock activityLine = some (b, sec, aft))
    (hnt : noTripleNl (joinNl (b ++ sec ++ aft)) = true)
    (hsec : ∀ x ∈ sec.drop 1, ∀ l ∈ splitNl x, isSectionBoundary l = false) :
    textOutside (rebuildMovieNoteContent content reviewBlock activityLine) =
      textOutside content := by
  obtain ⟨b0, sl, a0, hloc⟩ : ∃ b0 sl a0, locateSection content = some (b0, sl, a0) := by
    unfold rebuildParts at hp
    cases hl : locateSection content with
    | none => rw [hl] at hp; simp at hp
    | some tt =>
      obtain ⟨x, y, z⟩ := tt
      exact ⟨x, y, z, rfl⟩
  have hp2 := hp
  unfold rebuildParts at hp2
  rw [hloc] at hp2
  simp only [Option.some_inj] at hp2
  injection hp2 with hB hp3
  injection hp3 with hSEC hAFT
  have hout : rebuildMovieNoteContent content reviewBlock activityLine =
      collapseNl (joinNl (b ++ sec ++ aft)) := by
    unfold rebuildMovieNoteContent
    rw [hp]
  have hTin : textOutside content = some (joinNl b0, joinNl a0) := by
    unfold textOutside
    rw [hloc]
    rfl
  rw [hB, hAFT] at hTin
  have hstv : sec = mainHeaderStr :: sec.drop 1 := by
    rw [← hSEC]
    rfl
  -- facts from the located section of the input
  unfold locateSection at hloc
  dsimp only at hloc
  cases hidx : firstIdxP isMainHeaderLine (splitNl content) with
  | none =>
    rw [hidx] at hloc
    simp at hloc
  | some idx =>
    rw [hidx] at hloc
    simp only [Option.some_inj] at hloc
    injection hloc with hB0 hloc2
    injection hloc2 with hSL hA0
    have hbnl : ∀ l ∈ b, ('\n' : Char) ∉ l := by
      intro l hl
      rw [← hB, ← hB0] at hl
      exact mem_splitNl_not_nl l (List.take_subset _ _ hl)
    have hbmh : ∀ l ∈ b, isMainHeaderLine l = false := by
      intro l hl
      rw [← hB, ← hB0] at hl
      exact (firstIdxP_some_spec hidx).1 l hl
    have haftfacts : aft = [] ∨ ∃ x t, aft = x :: t ∧ isSectionBoundary x = true := by
      cases hbd : firstIdxP isSectionBoundary ((splitNl content).drop (idx + 1)) with
      | none =>
        left
        rw [hbd] at hA0
        dsimp only at hA0
        rw [← hAFT, ← hA0]
        apply List.drop_eq_nil_of_le
        rw [List.length_drop]
        omega
      | some j =>
        right
        rw [hbd] at hA0
        dsimp only at hA0
        obtain ⟨_, x, t, hdrop, hx⟩ := firstIdxP_some_spec hbd
        refine ⟨x, t, ?_, hx⟩
        rw [← hAFT, ← hA0, ← hdrop, List.drop_drop]
    have hanl : ∀ l ∈ aft, ('\n' : Char) ∉ l := by
      intro l hl
      rw [← hAFT, ← hA0] at hl
      exact mem_splitNl_not_nl l (List.drop_subset _ _ hl)
    rw [hout, hTin]
    rw [show joinNl (b ++ sec ++ aft) =
      joinNl (b ++ mainHeaderStr :: sec.drop 1 ++ aft) from by rw [← hstv]]
    exact textOutside_splice hbnl hanl hbmh
      (fun x hx l hlx => hsec x hx l hlx)
      haftfacts
      (by rw [← hstv]; exact hnt)

/-- Witness for C3: a concrete note whose managed-section merge leaves
the outside text byte-identical, the hypotheses of the theorem holding
by computation. -/
theorem claim_C3_witness :
    textOutside (rebuildMovieNoteContent
      (str "X\n## Letterboxd\n\n### Activity\n\n- A\n") [] (str "- B")) =
      textOutside (str "X\n## Letterboxd\n\n### Activity\n\n- A\n") :=
  claim_C3 (str "X\n## Letterboxd\n\n### Activity\n\n- A\n") [] (str "- B")
    [str "X"]
    [str "## Letterboxd", [], str "### Activity", [], str "- A\n- B", []]
    []
    (by decide) (by decide) (by decide)

/-- Counterexample for C3 as stated: a note whose text before the
managed heading holds a run of three newlines; the merge's final
normalisation collapses that run, so the text outside the managed
section is not byte-identical in the output. -/
theorem claim_C3_counterexample :
    textOutside (rebuildMovieNoteContent
      (str "A\n\n\nB\n## Letterboxd\n\n### Activity\n\n- X") [] (str "- X")) ≠
      textOutside (str "A\n\n\nB\n## Letterboxd\n\n### Activity\n\n- X") := by
  decide
